import Mathlib

/-!
The header matrix.H : 3 x 3 matrices in 9-vector notation.

A shallow embedding of `matrix.H` (D. Trinkle, 2002).  A matrix is a buffer of nine
scalars, entry `(i,j)` living at position `3*i + j`:

    | 0 1 2 |
    | 3 4 5 |
    | 6 7 8 |

The arithmetic primitives are generic in the scalar type (the header repeats each of
them for `int` and `double`); the eigen-solver is generic in an ordered field together
with the `<math.h>` functions it calls.  Over `ℝ` this is the exact-arithmetic reading
of the `double` code.
-/

namespace AnisotropicElasticity

/-- A 3 x 3 matrix in 9-vector notation (`x[9]`). -/
abbrev Mat9 (α : Type) := Fin 9 → α

/-- A 3-vector (`v[3]`). -/
abbrev Vec3 (α : Type) := Fin 3 → α

/-! ## Indexing -/

/-- Source `index(i,j)`: position of entry `(i,j)` in the 9-vector. -/
def index (i j : Int) : Int := 3 * i + j

/-- Range of a C `int`. -/
def intOk (z : Int) : Prop := -2147483648 ≤ z ∧ z ≤ 2147483647

instance (z : Int) : Decidable (intOk z) := by unfold intOk; infer_instance

/-- The subscript `index(i/3, ((i%3)+rot)%3)` that `rotate` reads for output position `i`.
C's `/` and `%` truncate towards zero, hence `Int.tdiv` and `Int.tmod`. -/
def rotateIdx (i : Fin 9) (rot : Int) : Int :=
  index (Int.tdiv (i.val : Int) 3) (Int.tmod (Int.tmod (i.val : Int) 3 + rot) 3)

/-- The subscript `index(i%3, i/3)` that `transpose` reads for output position `i`. -/
def transposeIdx (i : Fin 9) : Int :=
  index (Int.tmod (i.val : Int) 3) (Int.tdiv (i.val : Int) 3)

/-- The position `idx(i,j) = 3*i + j` of entry `(i,j)`, for `i`, `j` in `0..2`. -/
def idx (i j : Fin 3) : Fin 9 := ⟨3 * i.val + j.val, by omega⟩

/-! ## Arithmetic primitives -/

section Primitives

variable {α : Type} [CommRing α]

/-- Source `det`: determinant of a matrix in 9-vector notation. -/
def det (x : Mat9 α) : α :=
  x 0 * (x 4 * x 8 - x 5 * x 7)
    + x 1 * (x 6 * x 5 - x 3 * x 8)
    + x 2 * (x 3 * x 7 - x 6 * x 4)

/-- Source `rotate`: `a_rot[i] = a[index(i/3, ((i%3)+rot)%3)]` for `i = 0..8`.
The result is `none` when the loop leaves defined behaviour: the `int` sum `(i%3)+rot`
overflows, or a subscript falls outside `0..8`. -/
def rotate (a : Mat9 α) (rot : Int) : Option (Mat9 α) :=
  if h : ∀ i : Fin 9, intOk (Int.tmod (i.val : Int) 3 + rot)
      ∧ 0 ≤ rotateIdx i rot ∧ rotateIdx i rot < 9 then
    some (fun i => a ⟨(rotateIdx i rot).toNat, by have := h i; omega⟩)
  else none

/-- Source `transpose`: `b[i] = a[index(i%3, i/3)]` for `i = 0..8`. -/
def transpose (a : Mat9 α) : Mat9 α :=
  fun i => a ⟨(transposeIdx i).toNat, by revert i; decide⟩

/-- Source `inverse`: returns `det x` and writes the unnormalised inverse into `inv`. -/
def inverse (x : Mat9 α) : α × Mat9 α :=
  (det x,
   ![x 4 * x 8 - x 5 * x 7, x 2 * x 7 - x 1 * x 8, x 1 * x 5 - x 2 * x 4,
     x 5 * x 6 - x 3 * x 8, x 0 * x 8 - x 2 * x 6, x 2 * x 3 - x 0 * x 5,
     x 3 * x 7 - x 4 * x 6, x 1 * x 6 - x 0 * x 7, x 0 * x 4 - x 1 * x 3])

/-- Source `mult` (matrix, matrix): the product `a * b`. -/
def mult (a b : Mat9 α) : Mat9 α :=
  ![a 0 * b 0 + a 1 * b 3 + a 2 * b 6,
    a 0 * b 1 + a 1 * b 4 + a 2 * b 7,
    a 0 * b 2 + a 1 * b 5 + a 2 * b 8,
    a 3 * b 0 + a 4 * b 3 + a 5 * b 6,
    a 3 * b 1 + a 4 * b 4 + a 5 * b 7,
    a 3 * b 2 + a 4 * b 5 + a 5 * b 8,
    a 6 * b 0 + a 7 * b 3 + a 8 * b 6,
    a 6 * b 1 + a 7 * b 4 + a 8 * b 7,
    a 6 * b 2 + a 7 * b 5 + a 8 * b 8]

/-- Source `mult_vect`: multiplies vector `b` by matrix `a`. -/
def mult_vect (a : Mat9 α) (b : Vec3 α) : Vec3 α :=
  ![a 0 * b 0 + a 1 * b 1 + a 2 * b 2,
    a 3 * b 0 + a 4 * b 1 + a 5 * b 2,
    a 6 * b 0 + a 7 * b 1 + a 8 * b 2]

/-- Source `innerprod`: the inner product `v1 . a . v2`. -/
def innerprod (v1 : Vec3 α) (a : Mat9 α) (v2 : Vec3 α) : α :=
  v1 0 * a 0 * v2 0 + v1 0 * a 1 * v2 1 + v1 0 * a 2 * v2 2 +
  v1 1 * a 3 * v2 0 + v1 1 * a 4 * v2 1 + v1 1 * a 5 * v2 2 +
  v1 2 * a 6 * v2 0 + v1 2 * a 7 * v2 1 + v1 2 * a 8 * v2 2

/-- Source `mult` (matrix, scalar): `c[i] = b*a[i]` for `i = 0..8`. -/
def mult_scalar (a : Mat9 α) (b : α) : Mat9 α := fun i => b * a i

/-- Source `square`: `xT * x`, the three entries below the diagonal copied from above it. -/
def square (x : Mat9 α) : Mat9 α :=
  let s0 := x 0 * x 0 + x 3 * x 3 + x 6 * x 6
  let s1 := x 0 * x 1 + x 3 * x 4 + x 6 * x 7
  let s2 := x 0 * x 2 + x 3 * x 5 + x 6 * x 8
  let s3 := s1
  let s4 := x 1 * x 1 + x 4 * x 4 + x 7 * x 7
  let s5 := x 1 * x 2 + x 4 * x 5 + x 7 * x 8
  let s6 := s2
  let s7 := s5
  let s8 := x 2 * x 2 + x 5 * x 5 + x 8 * x 8
  ![s0, s1, s2, s3, s4, s5, s6, s7, s8]

/-- Source `magnsq`: squared magnitude of `u` under the symmetric metric. -/
def magnsq (metric : Mat9 α) (u : Vec3 α) : α :=
  metric 0 * u 0 * u 0 + metric 4 * u 1 * u 1 + metric 8 * u 2 * u 2
    + 2 * metric 1 * u 0 * u 1 + 2 * metric 2 * u 0 * u 2 + 2 * metric 5 * u 1 * u 2

/-- The identity matrix in 9-vector notation. -/
def identity9 : Mat9 α := ![1, 0, 0, 0, 1, 0, 0, 0, 1]

/-- The matrix `x*I - D` in 9-vector notation. -/
def charMatrix (x : α) (D : Mat9 α) : Mat9 α := fun i => x * identity9 i - D i

/-- The matrix `D - x*I` in 9-vector notation. -/
def shiftMatrix (D : Mat9 α) (x : α) : Mat9 α := fun i => D i - x * identity9 i

/-- The dot product of two 3-vectors. -/
def dot3 (u v : Vec3 α) : α := u 0 * v 0 + u 1 * v 1 + u 2 * v 2

/-- The 3 x 3 matrix `M` with `M i j = x[3*i+j]`. -/
def toMatrix (x : Mat9 α) : Matrix (Fin 3) (Fin 3) α :=
  Matrix.of fun i j => x ⟨3 * i.val + j.val, by omega⟩

end Primitives

/-! ## The `<math.h>` functions and the comparator of `dcomp.H` -/

/-- The `<math.h>` functions called by `eigen` and `eigenvect`. -/
structure Libm (α : Type) where
  /-- C `sqrt`. -/
  sqrt : α → α
  /-- C `fabs`. -/
  fabs : α → α
  /-- C `exp`. -/
  exp : α → α
  /-- C `log`. -/
  log : α → α
  /-- C `sin`. -/
  sin : α → α
  /-- C `cos`. -/
  cos : α → α
  /-- C `atan2(y, x)`. -/
  atan2 : α → α → α

/-- The functions of `<math.h>` on exact reals; `atan2 y x` is the argument of `x + i*y`,
in `(-π, π]`, and `0` at the origin. -/
noncomputable def realLibm : Libm ℝ where
  sqrt := Real.sqrt
  fabs := fun x => |x|
  exp := Real.exp
  log := Real.log
  sin := Real.sin
  cos := Real.cos
  atan2 := fun y x => Complex.arg ⟨x, y⟩

/-- Modelled from the spec: `dcomp.H` is not part of the sources.  The spec describes the
comparator as true iff `|x - y|` is within a fixed epsilon; `eps` is that epsilon. -/
def dcompTol {α : Type} [LinearOrderedField α] (eps : α) (x y : α) : Bool :=
  decide (|x - y| < eps)

/-- The exact comparator: `x` and `y` compare equal iff they are equal. -/
def dcompExact {α : Type} [LinearOrderedField α] (x y : α) : Bool :=
  decide (x = y)

/-! ## Eigenvalues -/

section Eigen

variable {α : Type} [LinearOrderedField α]

/-- Source `cube`: cube root of `x > 0`, as `exp(log(x)/3.)`. -/
def cube (m : Libm α) (x : α) : α := m.exp (m.log x / 3)

/-- Local `p` of `eigen`: `-Tr D`. -/
def eigenP (D : Mat9 α) : α := -(D 0 + D 4 + D 8)

/-- Local `q` of `eigen`. -/
def eigenQ (D : Mat9 α) : α :=
  D 0 * D 4 + D 0 * D 8 + D 4 * D 8 - D 1 * D 1 - D 2 * D 2 - D 5 * D 5

/-- Local `r` of `eigen`: `-det D` for symmetric `D`. -/
def eigenR (D : Mat9 α) : α :=
  D 0 * D 5 * D 5 + D 4 * D 2 * D 2 + D 8 * D 1 * D 1 - D 0 * D 4 * D 8 - 2 * D 1 * D 2 * D 5

/-- Local `a` of `eigen`: `q - p*p/3.`. -/
def eigenA (D : Mat9 α) : α := eigenQ D - eigenP D * eigenP D / 3

/-- Local `b` of `eigen`: `2.*p*p*p/27. - p*q/3. + r`. -/
def eigenB (D : Mat9 α) : α :=
  2 * eigenP D * eigenP D * eigenP D / 27 - eigenP D * eigenQ D / 3 + eigenR D

/-- Local `a0` of `eigen`: `-0.5*b`. -/
def eigenA0 (D : Mat9 α) : α := -0.5 * eigenB D

/-- Local `b0` of `eigen` as first assigned: `-(0.25*b*b + a*a*a/27.)`. -/
def eigenB0 (D : Mat9 α) : α :=
  -(0.25 * eigenB D * eigenB D + eigenA D * eigenA D * eigenA D / 27)

/-- Local `b0` of `eigen` after `if (b0 > 0) b0 = sqrt(b0); else b0 = sqrt(fabs(b0));`. -/
def eigenB0root (m : Libm α) (D : Mat9 α) : α :=
  if eigenB0 D > 0 then m.sqrt (eigenB0 D) else m.sqrt (m.fabs (eigenB0 D))

/-- Local `theta` of `eigen`: `atan2(b0, a0)`. -/
def eigenTheta (m : Libm α) (D : Mat9 α) : α := m.atan2 (eigenB0root m D) (eigenA0 D)

/-- Local `magn` of `eigen`: `sqrt(a0*a0 + b0*b0)`. -/
def eigenMagn (m : Libm α) (D : Mat9 α) : α :=
  m.sqrt (eigenA0 D * eigenA0 D + eigenB0root m D * eigenB0root m D)

/-- Local `ApB` of `eigen`. -/
def eigenApB (m : Libm α) (D : Mat9 α) : α :=
  if eigenMagn m D > 1e-24 then 2 * m.cos (eigenTheta m D / 3) * cube m (eigenMagn m D) else 0

/-- Local `AmB` of `eigen`. -/
def eigenAmB (m : Libm α) (D : Mat9 α) : α :=
  if eigenMagn m D > 1e-24 then 2 * m.sin (eigenTheta m D / 3) * cube m (eigenMagn m D) else 0

/-- The comparison code `t` of `eigen`: `4*[l0<l1] + 2*[l1<l2] + [l0<l2]`. -/
def sortCode (l0 l1 l2 : α) : Nat :=
  (if l0 < l1 then 4 else 0) + (if l1 < l2 then 2 else 0) + (if l0 < l2 then 1 else 0)

/-- The `switch (t)` of `eigen`, acting on `lambda[0..2]`. -/
def sortTable (l0 l1 l2 : α) : Vec3 α :=
  match sortCode l0 l1 l2 with
  | 0 => ![l2, l1, l0]
  | 2 => ![l1, l2, l0]
  | 3 => ![l1, l0, l2]
  | 4 => ![l2, l0, l1]
  | 5 => ![l0, l2, l1]
  | _ => ![l0, l1, l2]

/-- The values `lambda[0..2]` of `eigen` before the sort. -/
def eigenUnsorted (m : Libm α) (D : Mat9 α) : Vec3 α :=
  ![eigenApB m D - eigenP D / 3,
    -0.5 * eigenApB m D + m.sqrt 0.75 * eigenAmB m D - eigenP D / 3,
    -0.5 * eigenApB m D - m.sqrt 0.75 * eigenAmB m D - eigenP D / 3]

/-- Source `eigen`: the eigenvalues of a symmetric matrix, by solving the characteristic
cubic directly. -/
def eigen (m : Libm α) (D : Mat9 α) : Vec3 α :=
  if eigenB0 D < -1e-10 then ![0, 0, 0]
  else
    sortTable (eigenUnsorted m D 0) (eigenUnsorted m D 1) (eigenUnsorted m D 2)

/-- The statements of `eigen` from the test `if (b0 < -1e-10)` to the end, as a function
of the values that the locals `p`, `a0` and `b0` hold at that point. -/
def eigenFrom (m : Libm α) (p a0 b0 : α) : Vec3 α :=
  if b0 < -1e-10 then ![0, 0, 0]
  else
    let b0 := if b0 > 0 then m.sqrt b0 else m.sqrt (m.fabs b0)
    let theta := m.atan2 b0 a0
    let magn := m.sqrt (a0 * a0 + b0 * b0)
    let ApB := if magn > 1e-24 then 2 * m.cos (theta / 3) * cube m magn else 0
    let AmB := if magn > 1e-24 then 2 * m.sin (theta / 3) * cube m magn else 0
    sortTable (ApB - p / 3) (-0.5 * ApB + m.sqrt 0.75 * AmB - p / 3)
      (-0.5 * ApB - m.sqrt 0.75 * AmB - p / 3)

end Eigen

/-! ## Eigenvectors -/

section Eigenvect

variable {α : Type} [LinearOrderedField α]

/-- A call of C `sqrt`: the result is not a number when the argument is negative. -/
def sqrtChecked (m : Libm α) (x : α) : Option α :=
  if x < 0 then none else some (m.sqrt x)

/-- The branch `dcomp(D22minusl, 0.)` of `eigenvect`. -/
def eigenvectDegenerate (D : Mat9 α) (lambda : α) : Vec3 α :=
  let a := D 2 * D 5
  ![a - D 5 * D 5, a - D 2 * D 2,
    D 5 * (D 1 - D 0 + lambda) + D 2 * (D 1 - D 4 + lambda)]

/-- The "normal solution" branch of `eigenvect`. -/
def eigenvectGeneric (m : Libm α) (dcomp : α → α → Bool) (D : Mat9 α) (lambda : α) :
    Option (Vec3 α) :=
  let D22minusl := D 8 - lambda
  let a := D 2 * D 2 - (D 0 - lambda) * D22minusl
  let c := D 5 * D 5 - (D 4 - lambda) * D22minusl
  let signb : Int := if D 2 * D 5 > D 1 * D22minusl then 1 else -1
  let roots : Option (α × α × Int) :=
    if dcomp a 0 then
      (if c > 0 then sqrtChecked m c else sqrtChecked m (-c)).map fun sqrtc => (0, sqrtc, 0)
    else if a > 0 then
      (sqrtChecked m a).bind fun sqrta =>
        (if dcomp c 0 then some 0 else sqrtChecked m c).map fun sqrtc => (sqrta, sqrtc, signb)
    else
      (sqrtChecked m (-a)).bind fun sqrta =>
        (if dcomp c 0 then some 0 else sqrtChecked m (-c)).map fun sqrtc =>
          (sqrta, sqrtc, -signb)
  roots.map fun (sqrta, sqrtc, signab) =>
    if signab = 1 then
      ![D22minusl * sqrtc, -sqrta * D22minusl, -(D 2 * sqrtc - D 5 * sqrta)]
    else
      ![D22minusl * sqrtc, sqrta * D22minusl, -(D 2 * sqrtc + D 5 * sqrta)]

/-- The vector held by `eigenvect` just before normalisation. -/
def eigenvectRaw (m : Libm α) (dcomp : α → α → Bool) (D : Mat9 α) (lambda : α) :
    Option (Vec3 α) :=
  if dcomp (D 8 - lambda) 0 then some (eigenvectDegenerate D lambda)
  else eigenvectGeneric m dcomp D lambda

/-- The normalisation step of `eigenvect`.  When the test `dcomp(magn, 0.)` fails on
`magn = 0` the division `1./magn` is not a number. -/
def normalize (m : Libm α) (dcomp : α → α → Bool) (vect : Vec3 α) : Option (Vec3 α) :=
  (sqrtChecked m (vect 0 * vect 0 + vect 1 * vect 1 + vect 2 * vect 2)).bind fun magn =>
    if dcomp magn 0 then some ![vect 0, vect 1, 1]
    else if magn = 0 then none
    else
      let magn := 1 / magn
      some ![vect 0 * magn, vect 1 * magn, vect 2 * magn]

/-- Source `eigenvect`: the eigenvector for a given eigenvalue; `none` when a square root
of a negative number (or `1./0`) is taken. -/
def eigenvect (m : Libm α) (dcomp : α → α → Bool) (D : Mat9 α) (lambda : α) :
    Option (Vec3 α) :=
  (eigenvectRaw m dcomp D lambda).bind (normalize m dcomp)

/-- Euclidean norm of a 3-vector over the reals. -/
noncomputable def norm3 (v : Vec3 ℝ) : ℝ := Real.sqrt (v 0 * v 0 + v 1 * v 1 + v 2 * v 2)

/-- Symmetry of a matrix in 9-vector notation: `a[idx(i,j)] = a[idx(j,i)]`. -/
def IsSymm {α : Type} (D : Mat9 α) : Prop := D 1 = D 3 ∧ D 2 = D 6 ∧ D 5 = D 7

end Eigenvect

/-! ## Auxiliary lemmas -/

open Matrix

section Extensionality

variable {α : Type}

theorem ext9 {f g : Mat9 α} (h0 : f 0 = g 0) (h1 : f 1 = g 1) (h2 : f 2 = g 2)
    (h3 : f 3 = g 3) (h4 : f 4 = g 4) (h5 : f 5 = g 5) (h6 : f 6 = g 6) (h7 : f 7 = g 7)
    (h8 : f 8 = g 8) : f = g := by
  funext i
  fin_cases i <;> assumption

theorem ext3 {f g : Vec3 α} (h0 : f 0 = g 0) (h1 : f 1 = g 1) (h2 : f 2 = g 2) : f = g := by
  funext i
  fin_cases i <;> assumption

@[simp] theorem vec9_0 (a0 a1 a2 a3 a4 a5 a6 a7 a8 : α) :
    (![a0, a1, a2, a3, a4, a5, a6, a7, a8] : Mat9 α) 0 = a0 := rfl

@[simp] theorem vec9_1 (a0 a1 a2 a3 a4 a5 a6 a7 a8 : α) :
    (![a0, a1, a2, a3, a4, a5, a6, a7, a8] : Mat9 α) 1 = a1 := rfl

@[simp] theorem vec9_2 (a0 a1 a2 a3 a4 a5 a6 a7 a8 : α) :
    (![a0, a1, a2, a3, a4, a5, a6, a7, a8] : Mat9 α) 2 = a2 := rfl

@[simp] theorem vec9_3 (a0 a1 a2 a3 a4 a5 a6 a7 a8 : α) :
    (![a0, a1, a2, a3, a4, a5, a6, a7, a8] : Mat9 α) 3 = a3 := rfl

@[simp] theorem vec9_4 (a0 a1 a2 a3 a4 a5 a6 a7 a8 : α) :
    (![a0, a1, a2, a3, a4, a5, a6, a7, a8] : Mat9 α) 4 = a4 := rfl

@[simp] theorem vec9_5 (a0 a1 a2 a3 a4 a5 a6 a7 a8 : α) :
    (![a0, a1, a2, a3, a4, a5, a6, a7, a8] : Mat9 α) 5 = a5 := rfl

@[simp] theorem vec9_6 (a0 a1 a2 a3 a4 a5 a6 a7 a8 : α) :
    (![a0, a1, a2, a3, a4, a5, a6, a7, a8] : Mat9 α) 6 = a6 := rfl

@[simp] theorem vec9_7 (a0 a1 a2 a3 a4 a5 a6 a7 a8 : α) :
    (![a0, a1, a2, a3, a4, a5, a6, a7, a8] : Mat9 α) 7 = a7 := rfl

@[simp] theorem vec9_8 (a0 a1 a2 a3 a4 a5 a6 a7 a8 : α) :
    (![a0, a1, a2, a3, a4, a5, a6, a7, a8] : Mat9 α) 8 = a8 := rfl

theorem transpose_eq [CommRing α] (a : Mat9 α) :
    transpose a = ![a 0, a 3, a 6, a 1, a 4, a 7, a 2, a 5, a 8] := by
  apply ext9 <;> rfl

end Extensionality

theorem rotateIdx_of_nonneg (i : Fin 9) (k : Int) (hk : 0 ≤ k) :
    rotateIdx i k = 3 * ((i.val : Int) / 3) + ((i.val : Int) % 3 + k) % 3 := by
  unfold rotateIdx index
  have h1 : Int.tdiv (i.val : Int) 3 = (i.val : Int) / 3 := Int.tdiv_eq_ediv (by omega) (by omega)
  have h2 : Int.tmod (i.val : Int) 3 = (i.val : Int) % 3 := Int.tmod_eq_emod (by omega) (by omega)
  rw [h1, h2, Int.tmod_eq_emod (by omega) (by omega)]

theorem rotate_of_nonneg {α : Type} [CommRing α] (a : Mat9 α) (k : Int) (hk : 0 ≤ k)
    (hmax : k ≤ 2147483645) :
    rotate a k = some (fun i => a ⟨3 * (i.val / 3) + (i.val % 3 + k.toNat) % 3, by omega⟩) := by
  have hall : ∀ i : Fin 9, intOk (Int.tmod (i.val : Int) 3 + k)
      ∧ 0 ≤ rotateIdx i k ∧ rotateIdx i k < 9 := by
    intro i
    rw [rotateIdx_of_nonneg i k hk, Int.tmod_eq_emod (by omega) (by omega)]
    unfold intOk
    omega
  unfold rotate
  rw [dif_pos hall]
  congr 1
  funext i
  congr 2
  rw [rotateIdx_of_nonneg i k hk]
  omega

/-! ### The characteristic cubic of a symmetric matrix -/

theorem hermitian_det_scalar_sub (A : Matrix (Fin 3) (Fin 3) ℝ) (hA : A.IsHermitian) (x : ℝ) :
    (Matrix.scalar (Fin 3) x - A).det
      = (x - hA.eigenvalues 0) * (x - hA.eigenvalues 1) * (x - hA.eigenvalues 2) := by
  have hU : (hA.eigenvectorUnitary : Matrix (Fin 3) (Fin 3) ℝ)
      * star (hA.eigenvectorUnitary : Matrix (Fin 3) (Fin 3) ℝ) = 1 :=
    (Matrix.mem_unitaryGroup_iff).mp hA.eigenvectorUnitary.2
  have hs := hA.spectral_theorem
  have key : Matrix.scalar (Fin 3) x - A
      = (hA.eigenvectorUnitary : Matrix (Fin 3) (Fin 3) ℝ)
        * (Matrix.scalar (Fin 3) x - diagonal (RCLike.ofReal ∘ hA.eigenvalues))
        * star (hA.eigenvectorUnitary : Matrix (Fin 3) (Fin 3) ℝ) := by
    rw [mul_sub, sub_mul, ← hs]
    congr 1
    rw [← Matrix.scalar_commute x (fun r' => Commute.all _ _), mul_assoc, hU, mul_one]
  rw [key, det_mul_right_comm, hU, one_mul]
  rw [det_fin_three]
  simp [Matrix.scalar_apply, Matrix.diagonal_apply]

theorem toMatrix_isHermitian (D : Mat9 ℝ) (h : IsSymm D) : (toMatrix D).IsHermitian := by
  obtain ⟨h1, h2, h3⟩ := h
  refine Matrix.IsHermitian.ext fun i j => ?_
  fin_cases i <;> fin_cases j <;> simp [toMatrix, h1, h2, h3]

theorem charpoly_toMatrix (D : Mat9 ℝ) (h : IsSymm D) (x : ℝ) :
    x ^ 3 + eigenP D * x ^ 2 + eigenQ D * x + eigenR D
      = (Matrix.scalar (Fin 3) x - toMatrix D).det := by
  obtain ⟨h1, h2, h3⟩ := h
  rw [det_fin_three]
  simp [toMatrix, Matrix.scalar_apply, Matrix.diagonal_apply, eigenP, eigenQ, eigenR,
    ← h1, ← h2, ← h3]
  ring

/-- The characteristic cubic of a symmetric real matrix splits over the reals. -/
theorem charpoly_splits (D : Mat9 ℝ) (h : IsSymm D) :
    ∃ l0 l1 l2 : ℝ, eigenP D = -(l0 + l1 + l2) ∧ eigenQ D = l0 * l1 + l0 * l2 + l1 * l2
      ∧ eigenR D = -(l0 * l1 * l2) := by
  have hA := toMatrix_isHermitian D h
  refine ⟨hA.eigenvalues 0, hA.eigenvalues 1, hA.eigenvalues 2, ?_⟩
  have key : ∀ x : ℝ, x ^ 3 + eigenP D * x ^ 2 + eigenQ D * x + eigenR D
      = (x - hA.eigenvalues 0) * (x - hA.eigenvalues 1) * (x - hA.eigenvalues 2) := fun x => by
    rw [charpoly_toMatrix D h x, hermitian_det_scalar_sub _ hA x]
  have e0 := key 0
  have e1 := key 1
  have e2 := key (-1)
  refine ⟨?_, ?_, ?_⟩
  · linear_combination (1 / 2 : ℝ) * e1 + (1 / 2 : ℝ) * e2 - e0
  · linear_combination (1 / 2 : ℝ) * e1 - (1 / 2 : ℝ) * e2
  · linear_combination e0

theorem eigenB0_nonneg (D : Mat9 ℝ) (h : IsSymm D) : 0 ≤ eigenB0 D := by
  obtain ⟨l0, l1, l2, hp, hq, hr⟩ := charpoly_splits D h
  have e : eigenB0 D = ((l0 - l1) * (l0 - l2) * (l1 - l2)) ^ 2 / 108 := by
    simp only [eigenB0, eigenB, eigenA, hp, hq, hr]
    norm_num
    ring
  rw [e]
  positivity

/-! ### Cardano's formula -/

section Cardano

theorem cube_pow_three (x : ℝ) (hx : 0 < x) : cube realLibm x ^ 3 = x := by
  simp only [cube, realLibm]
  rw [← Real.exp_nat_mul]
  have : ((3 : ℕ) : ℝ) * (Real.log x / 3) = Real.log x := by push_cast; ring
  rw [this, Real.exp_log hx]

theorem eigenB0root_sq (D : Mat9 ℝ) (h : 0 ≤ eigenB0 D) :
    eigenB0root realLibm D * eigenB0root realLibm D = eigenB0 D := by
  unfold eigenB0root
  split_ifs with hpos
  · exact Real.mul_self_sqrt h
  · have hz : eigenB0 D = 0 := le_antisymm (not_lt.mp hpos) h
    simp [realLibm, hz]

theorem eigenMagn_sq (D : Mat9 ℝ) (h : 0 ≤ eigenB0 D) :
    eigenMagn realLibm D ^ 2 = -(eigenA D ^ 3) / 27 := by
  have e : eigenA0 D * eigenA0 D + eigenB0root realLibm D * eigenB0root realLibm D
      = -(eigenA D ^ 3) / 27 := by
    rw [eigenB0root_sq D h]
    simp only [eigenA0, eigenB0]
    norm_num
    ring
  have hnn : 0 ≤ eigenA0 D * eigenA0 D + eigenB0root realLibm D * eigenB0root realLibm D :=
    add_nonneg (mul_self_nonneg _) (mul_self_nonneg _)
  unfold eigenMagn
  show Real.sqrt _ ^ 2 = _
  rw [Real.sq_sqrt hnn, e]

theorem eigenMagn_mul_cos (D : Mat9 ℝ) :
    eigenMagn realLibm D * Real.cos (eigenTheta realLibm D) = eigenA0 D := by
  have := Complex.abs_mul_cos_arg ⟨eigenA0 D, eigenB0root realLibm D⟩
  rw [Complex.abs_apply, Complex.normSq_apply] at this
  exact this

/-- Cardano: in the branch `magn > 1e-24` the three unsorted values are the roots of the
depressed cubic shifted back by `p/3`. -/
theorem eigenUnsorted_roots_of_magn_pos (D : Mat9 ℝ) (h : 0 ≤ eigenB0 D)
    (hm : eigenMagn realLibm D > 1e-24) (x : ℝ) :
    (x - eigenUnsorted realLibm D 0) * (x - eigenUnsorted realLibm D 1)
        * (x - eigenUnsorted realLibm D 2)
      = x ^ 3 + eigenP D * x ^ 2 + eigenQ D * x + eigenR D := by
  have hpos : 0 < eigenMagn realLibm D := lt_trans (by norm_num) hm
  set ρ := cube realLibm (eigenMagn realLibm D) with hρ
  set C := Real.cos (eigenTheta realLibm D / 3) with hC
  set S := Real.sin (eigenTheta realLibm D / 3) with hS
  set k := Real.sqrt 0.75 with hk
  have hρ3 : ρ ^ 3 = eigenMagn realLibm D := cube_pow_three _ hpos
  have hk2 : k * k = 3 / 4 := by
    rw [hk, Real.mul_self_sqrt (by norm_num)]; norm_num
  have hCS : C ^ 2 + S ^ 2 = 1 := Real.cos_sq_add_sin_sq _
  -- rho^2 = -a/3
  have hcube : (ρ ^ 2) ^ 3 = (-(eigenA D) / 3) ^ 3 := by
    have := eigenMagn_sq D h
    rw [← hρ3] at this
    calc (ρ ^ 2) ^ 3 = (ρ ^ 3) ^ 2 := by ring
      _ = -(eigenA D ^ 3) / 27 := this
      _ = (-(eigenA D) / 3) ^ 3 := by ring
  have hinj : Function.Injective (fun t : ℝ => t ^ 3) :=
    (Odd.strictMono_pow (by decide)).injective
  have hρ2 : ρ ^ 2 = -(eigenA D) / 3 := hinj hcube
  -- 2 rho^3 cos(theta) = -b
  have hcos3 : Real.cos (eigenTheta realLibm D) = 4 * C ^ 3 - 3 * C := by
    rw [hC, ← Real.cos_three_mul]
    congr 1; ring
  have hb : 2 * ρ ^ 3 * (4 * C ^ 3 - 3 * C) = -(eigenB D) := by
    rw [hρ3, ← hcos3, mul_assoc, eigenMagn_mul_cos]
    simp only [eigenA0]; norm_num; ring
  have hA : eigenApB realLibm D = 2 * C * ρ := by
    unfold eigenApB; rw [if_pos hm]; rfl
  have hB : eigenAmB realLibm D = 2 * S * ρ := by
    unfold eigenAmB; rw [if_pos hm]; rfl
  have hS2 : S ^ 2 = 1 - C ^ 2 := by linarith
  have ha : eigenA D = -3 * ρ ^ 2 := by linarith
  have hq : eigenQ D = eigenA D + eigenP D * eigenP D / 3 := by simp only [eigenA]; ring
  have hr : eigenR D = eigenB D - 2 * eigenP D * eigenP D * eigenP D / 27
      + eigenP D * eigenQ D / 3 := by simp only [eigenB]; ring
  have e0 : eigenUnsorted realLibm D 0 = 2 * C * ρ - eigenP D / 3 := by
    show eigenApB realLibm D - _ = _; rw [hA]
  have e1 : eigenUnsorted realLibm D 1 = -0.5 * (2 * C * ρ) + k * (2 * S * ρ) - eigenP D / 3 := by
    show -0.5 * eigenApB realLibm D + realLibm.sqrt 0.75 * eigenAmB realLibm D - _ = _
    rw [hA, hB]; rfl
  have e2 : eigenUnsorted realLibm D 2 = -0.5 * (2 * C * ρ) - k * (2 * S * ρ) - eigenP D / 3 := by
    show -0.5 * eigenApB realLibm D - realLibm.sqrt 0.75 * eigenAmB realLibm D - _ = _
    rw [hA, hB]; rfl
  rw [e0, e1, e2, hr, hq, ha]
  have hb' : eigenB D = -(2 * ρ ^ 3 * (4 * C ^ 3 - 3 * C)) := by linarith
  rw [hb']
  linear_combination (x + eigenP D / 3 - 2 * C * ρ) * ρ ^ 2 * (-4 * S ^ 2) * hk2
    + (x + eigenP D / 3 - 2 * C * ρ) * ρ ^ 2 * (-3) * hS2

end Cardano

/-! ### The sorting table -/

section SortTable

variable {α : Type} [LinearOrderedField α]

theorem sortTable_perm (l0 l1 l2 : α) :
    sortTable l0 l1 l2 = ![l0, l1, l2] ∨ sortTable l0 l1 l2 = ![l0, l2, l1]
      ∨ sortTable l0 l1 l2 = ![l1, l0, l2] ∨ sortTable l0 l1 l2 = ![l1, l2, l0]
      ∨ sortTable l0 l1 l2 = ![l2, l0, l1] ∨ sortTable l0 l1 l2 = ![l2, l1, l0] := by
  unfold sortTable sortCode
  by_cases h1 : l0 < l1 <;> by_cases h2 : l1 < l2 <;> by_cases h3 : l0 < l2 <;>
    simp [h1, h2, h3]

theorem sortTable_sorted (l0 l1 l2 : α) :
    sortTable l0 l1 l2 0 ≤ sortTable l0 l1 l2 1 ∧ sortTable l0 l1 l2 1 ≤ sortTable l0 l1 l2 2 := by
  unfold sortTable sortCode
  by_cases h1 : l0 < l1 <;> by_cases h2 : l1 < l2 <;> by_cases h3 : l0 < l2 <;>
    simp only [not_lt] at h1 h2 h3 <;>
    simp [h1, h2, h3, not_lt.mpr] <;>
    (try constructor) <;> linarith

end SortTable

/-! ### Further facts used by the claims -/

section SortFacts

variable {α : Type} [LinearOrderedField α]

theorem sortTable_sum (l0 l1 l2 : α) :
    sortTable l0 l1 l2 0 + sortTable l0 l1 l2 1 + sortTable l0 l1 l2 2 = l0 + l1 + l2 := by
  rcases sortTable_perm l0 l1 l2 with h | h | h | h | h | h <;> rw [h] <;>
    simp only [Matrix.cons_val_zero, Matrix.cons_val_one, Matrix.cons_val_two, Matrix.head_cons,
      Matrix.tail_cons] <;> ring

theorem sortTable_prod (l0 l1 l2 x : α) :
    (x - sortTable l0 l1 l2 0) * (x - sortTable l0 l1 l2 1) * (x - sortTable l0 l1 l2 2)
      = (x - l0) * (x - l1) * (x - l2) := by
  rcases sortTable_perm l0 l1 l2 with h | h | h | h | h | h <;> rw [h] <;>
    simp only [Matrix.cons_val_zero, Matrix.cons_val_one, Matrix.cons_val_two, Matrix.head_cons,
      Matrix.tail_cons] <;> ring

theorem eigenUnsorted_sum (m : Libm α) (D : Mat9 α) :
    eigenUnsorted m D 0 + eigenUnsorted m D 1 + eigenUnsorted m D 2 = D 0 + D 4 + D 8 := by
  show (eigenApB m D - eigenP D / 3)
    + (-0.5 * eigenApB m D + m.sqrt 0.75 * eigenAmB m D - eigenP D / 3)
    + (-0.5 * eigenApB m D - m.sqrt 0.75 * eigenAmB m D - eigenP D / 3) = _
  simp only [eigenP]
  norm_num
  ring

end SortFacts

theorem det_eq_toMatrix_det {α : Type} [CommRing α] (x : Mat9 α) :
    det x = (toMatrix x).det := by
  rw [Matrix.det_fin_three]
  simp only [toMatrix, Matrix.of_apply, det]
  ring_nf
  rfl

/-- For symmetric `D` the cubic built by `eigen` is `det(x*I - D)`, with the repository's
`det`. -/
theorem charpoly_eq_det {α : Type} [LinearOrderedField α] (D : Mat9 α) (h : IsSymm D) (x : α) :
    x ^ 3 + eigenP D * x ^ 2 + eigenQ D * x + eigenR D = det (charMatrix x D) := by
  obtain ⟨h1, h2, h3⟩ := h
  simp only [det, charMatrix, identity9, eigenP, eigenQ, eigenR, vec9_0, vec9_1, vec9_2, vec9_3,
    vec9_4, vec9_5, vec9_6, vec9_7, vec9_8, ← h1, ← h2, ← h3]
  ring

theorem sortTable_const {α : Type} [LinearOrderedField α] (t : α) :
    sortTable t t t = ![t, t, t] := by
  simp [sortTable, sortCode]

/-- In the branch `magn <= 1e-24` all three values are `-p/3`. -/
theorem eigen_of_magn_small (D : Mat9 ℝ) (h : ¬ eigenB0 D < -1e-10)
    (hm : ¬ eigenMagn realLibm D > 1e-24) :
    eigen realLibm D = ![-eigenP D / 3, -eigenP D / 3, -eigenP D / 3] := by
  have hA : eigenApB realLibm D = 0 := by unfold eigenApB; rw [if_neg hm]
  have hB : eigenAmB realLibm D = 0 := by unfold eigenAmB; rw [if_neg hm]
  have e0 : eigenUnsorted realLibm D 0 = -eigenP D / 3 := by
    show eigenApB realLibm D - _ = _
    rw [hA]; ring
  have e1 : eigenUnsorted realLibm D 1 = -eigenP D / 3 := by
    show -0.5 * eigenApB realLibm D + realLibm.sqrt 0.75 * eigenAmB realLibm D - _ = _
    rw [hA, hB]; ring
  have e2 : eigenUnsorted realLibm D 2 = -eigenP D / 3 := by
    show -0.5 * eigenApB realLibm D - realLibm.sqrt 0.75 * eigenAmB realLibm D - _ = _
    rw [hA, hB]; ring
  unfold eigen
  rw [if_neg h, e0, e1, e2, sortTable_const]

/-- When `magn = 0` the cubic built by `eigen` is `(x + p/3)^3`. -/
theorem charpoly_of_magn_zero (D : Mat9 ℝ) (h : 0 ≤ eigenB0 D)
    (hm : eigenMagn realLibm D = 0) (x : ℝ) :
    x ^ 3 + eigenP D * x ^ 2 + eigenQ D * x + eigenR D = (x + eigenP D / 3) ^ 3 := by
  have hsq := eigenMagn_sq D h
  rw [hm] at hsq
  have ha3 : eigenA D ^ 3 = 0 := by linarith
  have ha : eigenA D = 0 := pow_eq_zero_iff (by norm_num) |>.mp ha3
  have hb0 : eigenB0 D = -(0.25 * eigenB D * eigenB D) := by
    have : eigenB0 D = -(0.25 * eigenB D * eigenB D + eigenA D * eigenA D * eigenA D / 27) := rfl
    rw [this, ha]; ring
  have hb2 : eigenB D * eigenB D = 0 := by
    have h2 : 0 ≤ eigenB D * eigenB D := mul_self_nonneg _
    rw [hb0] at h
    norm_num at h
    linarith
  have hb : eigenB D = 0 := mul_self_eq_zero.mp hb2
  have hq : eigenQ D = eigenA D + eigenP D * eigenP D / 3 := by simp only [eigenA]; ring
  have hr : eigenR D = eigenB D - 2 * eigenP D * eigenP D * eigenP D / 27
      + eigenP D * eigenQ D / 3 := by simp only [eigenB]; ring
  rw [hr, hq, ha, hb]
  ring

/-- The values written by `eigen` are the roots of the cubic it builds, when `b0 >= 0` and
`magn` is either above `1e-24` or exactly zero. -/
theorem eigen_roots_cubic (D : Mat9 ℝ) (h : 0 ≤ eigenB0 D)
    (hm : eigenMagn realLibm D > 1e-24 ∨ eigenMagn realLibm D = 0) (x : ℝ) :
    (x - eigen realLibm D 0) * (x - eigen realLibm D 1) * (x - eigen realLibm D 2)
      = x ^ 3 + eigenP D * x ^ 2 + eigenQ D * x + eigenR D := by
  have hfb : ¬ eigenB0 D < -1e-10 := not_lt.mpr (le_trans (by norm_num) h)
  rcases hm with hm | hm
  · unfold eigen
    rw [if_neg hfb, sortTable_prod]
    exact eigenUnsorted_roots_of_magn_pos D h hm x
  · have hsmall : ¬ eigenMagn realLibm D > 1e-24 := by rw [hm]; norm_num
    rw [eigen_of_magn_small D hfb hsmall, charpoly_of_magn_zero D h hm]
    simp only [Matrix.cons_val_zero, Matrix.cons_val_one, Matrix.cons_val_two, Matrix.head_cons,
      Matrix.tail_cons]
    ring

/-! ### Eigenvectors: the kernel of `D - lambda*I` -/

@[simp] theorem vec3_0 {α : Type} (a0 a1 a2 : α) : (![a0, a1, a2] : Vec3 α) 0 = a0 := rfl
@[simp] theorem vec3_1 {α : Type} (a0 a1 a2 : α) : (![a0, a1, a2] : Vec3 α) 1 = a1 := rfl
@[simp] theorem vec3_2 {α : Type} (a0 a1 a2 : α) : (![a0, a1, a2] : Vec3 α) 2 = a2 := rfl

theorem sqrtChecked_of_nonneg (x : ℝ) (hx : 0 ≤ x) :
    sqrtChecked realLibm x = some (Real.sqrt x) := by
  unfold sqrtChecked
  rw [if_neg (not_lt.mpr hx)]
  rfl

theorem sqrtc_of_nonneg (dcomp : ℝ → ℝ → Bool) (hd : ∀ x, dcomp x 0 = true ↔ x = 0)
    (c x : ℝ) (hx : 0 ≤ x) (hcx : c = 0 → x = 0) :
    (if dcomp c 0 = true then some 0 else sqrtChecked realLibm x) = some (Real.sqrt x) := by
  split_ifs with h
  · rw [hcx ((hd c).mp h), Real.sqrt_zero]
  · exact sqrtChecked_of_nonneg x hx

/-- The vector of the `signab == 1` arm lies in the kernel of `D - lambda*I`. -/
theorem kernel_of_signab_one (D : Mat9 ℝ) (lambda sa sc : ℝ) (hD : IsSymm D)
    (e1 : (D 2 * D 2 - (D 0 - lambda) * (D 8 - lambda)) * sc
      - (D 2 * D 5 - D 1 * (D 8 - lambda)) * sa = 0)
    (e2 : (D 2 * D 5 - D 1 * (D 8 - lambda)) * sc
      - (D 5 * D 5 - (D 4 - lambda) * (D 8 - lambda)) * sa = 0) :
    mult_vect D ![(D 8 - lambda) * sc, -sa * (D 8 - lambda), -(D 2 * sc - D 5 * sa)]
      = fun i => lambda
          * (![(D 8 - lambda) * sc, -sa * (D 8 - lambda), -(D 2 * sc - D 5 * sa)] : Vec3 ℝ) i := by
  obtain ⟨h1, h2, h3⟩ := hD
  apply ext3 <;> simp only [mult_vect, vec3_0, vec3_1, vec3_2, ← h1, ← h2, ← h3]
  · linear_combination -e1
  · linear_combination -e2
  · ring

/-- The vector of the other arm lies in the kernel of `D - lambda*I`. -/
theorem kernel_of_signab_other (D : Mat9 ℝ) (lambda sa sc : ℝ) (hD : IsSymm D)
    (e1 : (D 2 * D 2 - (D 0 - lambda) * (D 8 - lambda)) * sc
      + (D 2 * D 5 - D 1 * (D 8 - lambda)) * sa = 0)
    (e2 : (D 2 * D 5 - D 1 * (D 8 - lambda)) * sc
      + (D 5 * D 5 - (D 4 - lambda) * (D 8 - lambda)) * sa = 0) :
    mult_vect D ![(D 8 - lambda) * sc, sa * (D 8 - lambda), -(D 2 * sc + D 5 * sa)]
      = fun i => lambda
          * (![(D 8 - lambda) * sc, sa * (D 8 - lambda), -(D 2 * sc + D 5 * sa)] : Vec3 ℝ) i := by
  obtain ⟨h1, h2, h3⟩ := hD
  apply ext3 <;> simp only [mult_vect, vec3_0, vec3_1, vec3_2, ← h1, ← h2, ← h3]
  · linear_combination -e1
  · linear_combination -e2
  · ring

/-- From `b*b = (sa*sc)*(sa*sc)` and the sign of `b`. -/
theorem eq_mul_of_sq_pos (b sa sc : ℝ) (hsa : 0 ≤ sa) (hsc : 0 ≤ sc)
    (h : b * b = (sa * sc) * (sa * sc)) (hb : 0 < b) : b = sa * sc := by
  rcases mul_self_eq_mul_self_iff.mp h with h | h
  · exact h
  · have := mul_nonneg hsa hsc
    linarith

theorem eq_neg_mul_of_sq_nonpos (b sa sc : ℝ) (hsa : 0 ≤ sa) (hsc : 0 ≤ sc)
    (h : b * b = (sa * sc) * (sa * sc)) (hb : b ≤ 0) : b = -(sa * sc) := by
  rcases mul_self_eq_mul_self_iff.mp h with h | h
  · have := mul_nonneg hsa hsc
    linarith
  · exact h

/-- For symmetric `D` and `det(lambda*I - D) = 0`: `a*c = b*b`. -/
theorem minors_relation (D : Mat9 ℝ) (lambda : ℝ) (hD : IsSymm D)
    (hl : det (charMatrix lambda D) = 0) :
    (D 2 * D 2 - (D 0 - lambda) * (D 8 - lambda))
      * (D 5 * D 5 - (D 4 - lambda) * (D 8 - lambda))
      = (D 2 * D 5 - D 1 * (D 8 - lambda)) * (D 2 * D 5 - D 1 * (D 8 - lambda)) := by
  obtain ⟨h1, h2, h3⟩ := hD
  simp only [det, charMatrix, identity9, vec9_0, vec9_1, vec9_2, vec9_3, vec9_4, vec9_5, vec9_6,
    vec9_7, vec9_8, ← h1, ← h2, ← h3] at hl
  linear_combination (-(D 8 - lambda)) * hl

theorem eigenvectGeneric_kernel (dcomp : ℝ → ℝ → Bool) (hd : ∀ x, dcomp x 0 = true ↔ x = 0)
    (D : Mat9 ℝ) (lambda : ℝ) (hD : IsSymm D) (hl : det (charMatrix lambda D) = 0) :
    ∃ raw, eigenvectGeneric realLibm dcomp D lambda = some raw
      ∧ mult_vect D raw = fun i => lambda * raw i := by
  have hac := minors_relation D lambda hD hl
  unfold eigenvectGeneric
  simp only []
  generalize ha : D 2 * D 2 - (D 0 - lambda) * (D 8 - lambda) = a at hac ⊢
  generalize hc : D 5 * D 5 - (D 4 - lambda) * (D 8 - lambda) = c at hac ⊢
  have hbb : 0 ≤ a * c := by rw [hac]; exact mul_self_nonneg _
  by_cases ha0 : dcomp a 0 = true
  · -- a = 0, hence b = 0
    have haz : a = 0 := (hd a).mp ha0
    have hbz : D 2 * D 5 - D 1 * (D 8 - lambda) = 0 := by
      rw [haz, zero_mul] at hac
      exact mul_self_eq_zero.mp hac.symm
    rw [if_pos ha0]
    by_cases hcpos : c > 0
    · rw [if_pos hcpos, sqrtChecked_of_nonneg c hcpos.le]
      simp only [Option.map_some', zero_ne_one, if_false]
      refine ⟨_, rfl, ?_⟩
      apply kernel_of_signab_other D lambda 0 _ hD
      · rw [ha, haz]; ring
      · rw [hbz]; ring
    · rw [if_neg hcpos, sqrtChecked_of_nonneg (-c) (by linarith)]
      simp only [Option.map_some', zero_ne_one, if_false]
      refine ⟨_, rfl, ?_⟩
      apply kernel_of_signab_other D lambda 0 _ hD
      · rw [ha, haz]; ring
      · rw [hbz]; ring
  · have hane : a ≠ 0 := fun h => ha0 ((hd a).mpr h)
    rw [if_neg ha0]
    by_cases hapos : a > 0
    · have hcnn : 0 ≤ c := by
        by_contra hneg
        have := mul_neg_of_pos_of_neg hapos (not_le.mp hneg)
        linarith
      rw [if_pos hapos, sqrtChecked_of_nonneg a hapos.le,
        sqrtc_of_nonneg dcomp hd c c hcnn (fun h => h)]
      simp only [Option.some_bind, Option.map_some']
      have hsa := Real.mul_self_sqrt hapos.le
      have hsc := Real.mul_self_sqrt hcnn
      have hsq : (D 2 * D 5 - D 1 * (D 8 - lambda)) * (D 2 * D 5 - D 1 * (D 8 - lambda))
          = (Real.sqrt a * Real.sqrt c) * (Real.sqrt a * Real.sqrt c) := by
        rw [← hac]; nth_rewrite 1 [← hsa, ← hsc]; ring
      by_cases hP : D 2 * D 5 > D 1 * (D 8 - lambda)
      · have hb := eq_mul_of_sq_pos _ _ _ (Real.sqrt_nonneg a) (Real.sqrt_nonneg c) hsq
          (by linarith)
        simp only [if_pos hP, if_true]
        refine ⟨_, rfl, ?_⟩
        apply kernel_of_signab_one D lambda _ _ hD
        · rw [ha, hb]
          linear_combination (-Real.sqrt c) * hsa
        · rw [hc, hb]
          linear_combination Real.sqrt a * hsc
      · have hb := eq_neg_mul_of_sq_nonpos _ _ _ (Real.sqrt_nonneg a) (Real.sqrt_nonneg c) hsq
          (by linarith)
        simp only [if_neg hP, Int.reduceNeg, Int.reduceEq, if_false]
        refine ⟨_, rfl, ?_⟩
        apply kernel_of_signab_other D lambda _ _ hD
        · rw [ha, hb]
          linear_combination (-Real.sqrt c) * hsa
        · rw [hc, hb]
          linear_combination (-Real.sqrt a) * hsc
    · have haneg : a < 0 := lt_of_le_of_ne (not_lt.mp hapos) hane
      have hcnp : c ≤ 0 := by
        by_contra hpos
        have := mul_neg_of_neg_of_pos haneg (not_le.mp hpos)
        linarith
      rw [if_neg hapos, sqrtChecked_of_nonneg (-a) (by linarith),
        sqrtc_of_nonneg dcomp hd c (-c) (by linarith) (fun h => by rw [h, neg_zero])]
      simp only [Option.some_bind, Option.map_some']
      have hsa := Real.mul_self_sqrt (show 0 ≤ -a by linarith)
      have hsc := Real.mul_self_sqrt (show 0 ≤ -c by linarith)
      have hsq : (D 2 * D 5 - D 1 * (D 8 - lambda)) * (D 2 * D 5 - D 1 * (D 8 - lambda))
          = (Real.sqrt (-a) * Real.sqrt (-c)) * (Real.sqrt (-a) * Real.sqrt (-c)) := by
        rw [← hac]
        have : a * c = (-a) * (-c) := by ring
        rw [this]; nth_rewrite 1 [← hsa, ← hsc]; ring
      by_cases hP : D 2 * D 5 > D 1 * (D 8 - lambda)
      · have hb := eq_mul_of_sq_pos _ _ _ (Real.sqrt_nonneg (-a)) (Real.sqrt_nonneg (-c)) hsq
          (by linarith)
        simp only [if_pos hP, Int.reduceNeg, Int.reduceEq, if_false]
        refine ⟨_, rfl, ?_⟩
        apply kernel_of_signab_other D lambda _ _ hD
        · rw [ha, hb]
          linear_combination Real.sqrt (-c) * hsa
        · rw [hc, hb]
          linear_combination Real.sqrt (-a) * hsc
      · have hb := eq_neg_mul_of_sq_nonpos _ _ _ (Real.sqrt_nonneg (-a))
          (Real.sqrt_nonneg (-c)) hsq (by linarith)
        simp only [if_neg hP, Int.reduceNeg, neg_neg, if_true]
        refine ⟨_, rfl, ?_⟩
        apply kernel_of_signab_one D lambda _ _ hD
        · rw [ha, hb]
          linear_combination Real.sqrt (-c) * hsa
        · rw [hc, hb]
          linear_combination (-Real.sqrt (-a)) * hsc

/-- The vector of the branch `dcomp(D22minusl, 0.)` lies in the kernel of `D - lambda*I`
when `D[8] = lambda`. -/
theorem eigenvectDegenerate_kernel (D : Mat9 ℝ) (lambda : ℝ) (hD : IsSymm D)
    (hl : det (charMatrix lambda D) = 0) (h8 : D 8 - lambda = 0) :
    mult_vect D (eigenvectDegenerate D lambda)
      = fun i => lambda * eigenvectDegenerate D lambda i := by
  obtain ⟨h1, h2, h3⟩ := hD
  have h8' : D 8 = lambda := by linarith
  simp only [det, charMatrix, identity9, vec9_0, vec9_1, vec9_2, vec9_3, vec9_4, vec9_5, vec9_6,
    vec9_7, vec9_8, ← h1, ← h2, ← h3, h8'] at hl
  apply ext3 <;> simp only [mult_vect, eigenvectDegenerate, vec3_0, vec3_1, vec3_2, ← h1, ← h2,
    ← h3, h8']
  · linear_combination -hl
  · linear_combination -hl
  · ring

/-- With a comparator exact at zero, for symmetric `D` and a root `lambda` of the
characteristic polynomial, the vector held before normalisation is defined and lies in the
kernel of `D - lambda*I`. -/
theorem eigenvectRaw_kernel (dcomp : ℝ → ℝ → Bool) (hd : ∀ x, dcomp x 0 = true ↔ x = 0)
    (D : Mat9 ℝ) (lambda : ℝ) (hD : IsSymm D) (hl : det (charMatrix lambda D) = 0) :
    ∃ raw, eigenvectRaw realLibm dcomp D lambda = some raw
      ∧ mult_vect D raw = fun i => lambda * raw i := by
  unfold eigenvectRaw
  split_ifs with h
  · exact ⟨_, rfl, eigenvectDegenerate_kernel D lambda hD hl ((hd _).mp h)⟩
  · exact eigenvectGeneric_kernel dcomp hd D lambda hD hl

theorem norm3_eq_zero_iff (v : Vec3 ℝ) : norm3 v = 0 ↔ v = 0 := by
  unfold norm3
  rw [Real.sqrt_eq_zero']
  constructor
  · intro h
    have h0 := mul_self_nonneg (v 0)
    have h1 := mul_self_nonneg (v 1)
    have h2 := mul_self_nonneg (v 2)
    apply ext3
    · exact mul_self_eq_zero.mp (by linarith)
    · exact mul_self_eq_zero.mp (by linarith)
    · exact mul_self_eq_zero.mp (by linarith)
  · intro h
    rw [h]
    simp

theorem norm3_mul_self (v : Vec3 ℝ) : norm3 v * norm3 v = v 0 * v 0 + v 1 * v 1 + v 2 * v 2 :=
  Real.mul_self_sqrt
    (add_nonneg (add_nonneg (mul_self_nonneg _) (mul_self_nonneg _)) (mul_self_nonneg _))

/-- The scaled vector written by the `else` arm of the normalisation has norm one. -/
theorem norm3_scaled (v : Vec3 ℝ) (hn : norm3 v ≠ 0) :
    norm3 ![v 0 * (1 / norm3 v), v 1 * (1 / norm3 v), v 2 * (1 / norm3 v)] = 1 := by
  have hs := norm3_mul_self v
  have e : v 0 * (1 / norm3 v) * (v 0 * (1 / norm3 v))
      + v 1 * (1 / norm3 v) * (v 1 * (1 / norm3 v))
      + v 2 * (1 / norm3 v) * (v 2 * (1 / norm3 v)) = 1 := by
    field_simp
    linear_combination -hs
  show Real.sqrt (v 0 * (1 / norm3 v) * (v 0 * (1 / norm3 v))
      + v 1 * (1 / norm3 v) * (v 1 * (1 / norm3 v))
      + v 2 * (1 / norm3 v) * (v 2 * (1 / norm3 v))) = 1
  rw [e, Real.sqrt_one]

/-- The normalisation step, when `magn` is not within tolerance of zero. -/
theorem normalize_of_far (dcomp : ℝ → ℝ → Bool) (v : Vec3 ℝ)
    (h : dcomp (norm3 v) 0 = false) (hn : norm3 v ≠ 0) :
    normalize realLibm dcomp v
      = some ![v 0 * (1 / norm3 v), v 1 * (1 / norm3 v), v 2 * (1 / norm3 v)] := by
  unfold normalize
  rw [sqrtChecked_of_nonneg _
    (add_nonneg (add_nonneg (mul_self_nonneg _) (mul_self_nonneg _)) (mul_self_nonneg _))]
  simp only [Option.some_bind]
  have h' : dcomp (Real.sqrt (v 0 * v 0 + v 1 * v 1 + v 2 * v 2)) 0 = false := h
  have hn' : Real.sqrt (v 0 * v 0 + v 1 * v 1 + v 2 * v 2) ≠ 0 := hn
  rw [h']
  simp only [Bool.false_eq_true, if_false, if_neg hn']
  rfl

/-- The normalisation step, when `magn` is within tolerance of zero: only `vect[2]` is
overwritten. -/
theorem normalize_of_close (dcomp : ℝ → ℝ → Bool) (v : Vec3 ℝ)
    (h : dcomp (norm3 v) 0 = true) :
    normalize realLibm dcomp v = some ![v 0, v 1, 1] := by
  unfold normalize
  rw [sqrtChecked_of_nonneg _
    (add_nonneg (add_nonneg (mul_self_nonneg _) (mul_self_nonneg _)) (mul_self_nonneg _))]
  simp only [Option.some_bind]
  have h' : dcomp (Real.sqrt (v 0 * v 0 + v 1 * v 1 + v 2 * v 2)) 0 = true := h
  rw [if_pos h']

theorem mult_vect_scaled (D : Mat9 ℝ) (lambda k : ℝ) (v : Vec3 ℝ)
    (h : mult_vect D v = fun i => lambda * v i) :
    mult_vect D ![v 0 * k, v 1 * k, v 2 * k]
      = fun i => lambda * (![v 0 * k, v 1 * k, v 2 * k] : Vec3 ℝ) i := by
  have e0 := congrFun h 0
  have e1 := congrFun h 1
  have e2 := congrFun h 2
  simp only [mult_vect, vec3_0, vec3_1, vec3_2] at e0 e1 e2
  apply ext3 <;> simp only [mult_vect, vec3_0, vec3_1, vec3_2]
  · linear_combination k * e0
  · linear_combination k * e1
  · linear_combination k * e2

theorem dcompExact_zero (x : ℝ) : dcompExact x 0 = true ↔ x = 0 := by
  simp [dcompExact]

/-- At `D = [[0,0,1],[0,0,1],[1,1,0]]`, `lambda = 0`, the degenerate branch produces the
zero vector, whatever the comparator (as long as `dcomp(0,0)` holds), and `eigenvect`
writes `(0,0,1)`. -/
theorem eigenvect_collapse (dcomp : ℝ → ℝ → Bool) (h00 : dcomp 0 0 = true) :
    eigenvect realLibm dcomp ![0, 0, 1, 0, 0, 1, 1, 1, 0] 0 = some ![0, 0, 1] := by
  have hraw : eigenvectRaw realLibm dcomp ![0, 0, 1, 0, 0, 1, 1, 1, 0] 0 = some ![0, 0, 0] := by
    unfold eigenvectRaw
    simp only [vec9_8, sub_zero]
    rw [if_pos h00]
    simp only [eigenvectDegenerate, vec9_0, vec9_1, vec9_2, vec9_4, vec9_5]
    norm_num
  have hn : norm3 ![0, 0, 0] = 0 := (norm3_eq_zero_iff _).mpr (by apply ext3 <;> rfl)
  unfold eigenvect
  rw [hraw, Option.some_bind, normalize_of_close dcomp _ (by rw [hn]; exact h00)]
  rfl

theorem norm3_unit_y : norm3 ![0, 1, 0] = 1 := by
  show Real.sqrt _ = 1
  simp

theorem eigenvectRaw_diag123 :
    eigenvectRaw realLibm dcompExact ![1, 0, 0, 0, 2, 0, 0, 0, 3] 2 = some ![0, 1, 0] := by
  have h1 : dcompExact ((3 : ℝ) - 2) 0 = false := by norm_num [dcompExact]
  have h2 : dcompExact ((0 : ℝ) * 0 - (1 - 2) * (3 - 2)) 0 = false := by norm_num [dcompExact]
  have h3 : dcompExact ((0 : ℝ) * 0 - (2 - 2) * (3 - 2)) 0 = true := by norm_num [dcompExact]
  have h4 : (0 : ℝ) * 0 - (1 - 2) * (3 - 2) > 0 := by norm_num
  have h5 : ¬ ((0 : ℝ) * 0 > 0 * (3 - 2)) := by norm_num
  have h6 : sqrtChecked realLibm ((0 : ℝ) * 0 - (1 - 2) * (3 - 2)) = some 1 := by
    rw [sqrtChecked_of_nonneg _ h4.le]
    norm_num
  unfold eigenvectRaw eigenvectGeneric
  simp only [vec9_0, vec9_1, vec9_2, vec9_4, vec9_5, vec9_8, h1, h2, h3, if_pos h4, if_neg h5, h6,
    Bool.false_eq_true, if_false, if_true, Option.some_bind, Option.map_some', Int.reduceNeg,
    Int.reduceEq]
  norm_num

/-! ### The discriminant term, the fallback and the cubic -/

theorem eigen_eq_eigenFrom {α : Type} [LinearOrderedField α] (m : Libm α) (D : Mat9 α) :
    eigen m D = eigenFrom m (eigenP D) (eigenA0 D) (eigenB0 D) := rfl

/-- Over the reals `b0 >= 0` for every `D`: `eigen` reads only `D[0]`, `D[1]`, `D[2]`,
`D[4]`, `D[5]`, `D[8]`, so `b0` is that of the symmetric matrix with this upper triangle. -/
theorem eigenB0_nonneg_any (D : Mat9 ℝ) : 0 ≤ eigenB0 D := by
  have h := eigenB0_nonneg ![D 0, D 1, D 2, D 1, D 4, D 5, D 2, D 5, D 8] ⟨rfl, rfl, rfl⟩
  exact h

theorem eigenB0_cast (D : Mat9 ℚ) : eigenB0 (fun i => ((D i : ℚ) : ℝ)) = ((eigenB0 D : ℚ) : ℝ) := by
  simp only [eigenB0, eigenB, eigenA, eigenP, eigenQ, eigenR]
  norm_num

theorem idx_eq_index (i j : Fin 3) : ((idx i j).val : Int) = index i.val j.val := by
  simp [idx, index]

theorem eigenB0_formula {α : Type} [LinearOrderedField α] (D : Mat9 α) :
    eigenB0 D = -(eigenB D ^ 2 / 4 + eigenA D ^ 3 / 27)
      ∧ eigenA D = eigenQ D - eigenP D ^ 2 / 3
      ∧ eigenB D = 2 * eigenP D ^ 3 / 27 - eigenP D * eigenQ D / 3 + eigenR D := by
  refine ⟨?_, ?_, ?_⟩
  · simp only [eigenB0]
    norm_num
    ring
  · simp only [eigenA]
    ring
  · simp only [eigenB]
    ring

theorem eigenB0_nonneg_rat (D : Mat9 ℚ) (h : IsSymm D) : 0 ≤ eigenB0 D := by
  have hc : IsSymm (fun i => ((D i : ℚ) : ℝ)) := by
    obtain ⟨h1, h2, h3⟩ := h
    exact ⟨by show ((D 1 : ℚ) : ℝ) = D 3; rw [h1], by show ((D 2 : ℚ) : ℝ) = D 6; rw [h2],
      by show ((D 5 : ℚ) : ℝ) = D 7; rw [h3]⟩
  have := eigenB0_nonneg _ hc
  rw [eigenB0_cast] at this
  exact_mod_cast this

theorem sqrt_three_quarters : Real.sqrt 0.75 = Real.sqrt 3 / 2 := by
  have h : (0.75 : ℝ) = (Real.sqrt 3 / 2) ^ 2 := by
    rw [div_pow, Real.sq_sqrt (by norm_num)]
    norm_num
  rw [h, Real.sqrt_sq (by positivity)]

theorem eigen_ascending (D : Mat9 ℝ) :
    eigen realLibm D 0 ≤ eigen realLibm D 1 ∧ eigen realLibm D 1 ≤ eigen realLibm D 2 := by
  unfold eigen
  split_ifs
  · simp
  · exact sortTable_sorted _ _ _

/-! ### The spec's matrix `[[2,1,0],[1,2,0],[0,0,3]]` -/

theorem specMatrix_coeffs :
    eigenP (![2, 1, 0, 1, 2, 0, 0, 0, 3] : Mat9 ℝ) = -7
      ∧ eigenQ (![2, 1, 0, 1, 2, 0, 0, 0, 3] : Mat9 ℝ) = 15
      ∧ eigenR (![2, 1, 0, 1, 2, 0, 0, 0, 3] : Mat9 ℝ) = -9 := by
  refine ⟨?_, ?_, ?_⟩
  · simp only [eigenP, vec9_0, vec9_4, vec9_8]; norm_num
  · simp only [eigenQ, vec9_0, vec9_1, vec9_2, vec9_4, vec9_5, vec9_8]; norm_num
  · simp only [eigenR, vec9_0, vec9_1, vec9_2, vec9_4, vec9_5, vec9_8]; norm_num

theorem specMatrix_magn : eigenMagn realLibm (![2, 1, 0, 1, 2, 0, 0, 0, 3] : Mat9 ℝ) = 8 / 27 := by
  obtain ⟨hp, hq, _⟩ := specMatrix_coeffs
  have hsq := eigenMagn_sq _ (eigenB0_nonneg_any (![2, 1, 0, 1, 2, 0, 0, 0, 3] : Mat9 ℝ))
  have ha : eigenA (![2, 1, 0, 1, 2, 0, 0, 0, 3] : Mat9 ℝ) = -4 / 3 := by
    simp only [eigenA, hp, hq]; norm_num
  rw [ha] at hsq
  have hnn : 0 ≤ eigenMagn realLibm (![2, 1, 0, 1, 2, 0, 0, 0, 3] : Mat9 ℝ) := Real.sqrt_nonneg _
  have hsq' : eigenMagn realLibm (![2, 1, 0, 1, 2, 0, 0, 0, 3] : Mat9 ℝ) ^ 2 = (8 / 27) ^ 2 := by
    rw [hsq]; norm_num
  have habs := (sq_eq_sq_iff_abs_eq_abs _ _).mp hsq'
  rw [abs_of_nonneg hnn, abs_of_nonneg (by norm_num)] at habs
  exact habs

theorem specMatrix_eigen : eigen realLibm (![2, 1, 0, 1, 2, 0, 0, 0, 3] : Mat9 ℝ) = ![1, 3, 3] := by
  obtain ⟨hp, hq, hr⟩ := specMatrix_coeffs
  have hm : eigenMagn realLibm (![2, 1, 0, 1, 2, 0, 0, 0, 3] : Mat9 ℝ) > 1e-24 := by
    rw [specMatrix_magn]; norm_num
  have key := fun x => eigen_roots_cubic _
    (eigenB0_nonneg_any (![2, 1, 0, 1, 2, 0, 0, 0, 3] : Mat9 ℝ)) (Or.inl hm) x
  rw [hp, hq, hr] at key
  obtain ⟨s1, s2⟩ := eigen_ascending (![2, 1, 0, 1, 2, 0, 0, 0, 3] : Mat9 ℝ)
  generalize eigen realLibm (![2, 1, 0, 1, 2, 0, 0, 0, 3] : Mat9 ℝ) = e at key s1 s2
  have root : ∀ t : ℝ, t ^ 3 + -7 * t ^ 2 + 15 * t + -9 = 0 → t = 1 ∨ t = 3 := by
    intro t ht
    have hf : (t - 1) * ((t - 3) * (t - 3)) = 0 := by linear_combination ht
    rcases mul_eq_zero.mp hf with h | h
    · left; linarith
    · right
      rcases mul_eq_zero.mp h with h | h <;> linarith
  have r0 := root (e 0) (by rw [← key (e 0)]; ring)
  have r1 := root (e 1) (by rw [← key (e 1)]; ring)
  have r2 := root (e 2) (by rw [← key (e 2)]; ring)
  have hprod : e 0 * e 1 * e 2 = 9 := by linear_combination -(key 0)
  apply ext3 <;> simp only [vec3_0, vec3_1, vec3_2] <;>
    rcases r0 with r0 | r0 <;> rcases r1 with r1 | r1 <;> rcases r2 with r2 | r2 <;>
    rw [r0, r1, r2] at hprod <;> linarith

/-- When the characteristic polynomial of a symmetric `D` is `(x - l)^3`, the shifted
coefficients `a` and `b` vanish and `p = -3*l`. -/
theorem triple_root_coeffs (D : Mat9 ℝ) (l : ℝ) (hD : IsSymm D)
    (h3 : ∀ x : ℝ, det (charMatrix x D) = (x - l) ^ 3) :
    eigenP D = -(3 * l) ∧ eigenA D = 0 ∧ eigenB D = 0 := by
  have key : ∀ x : ℝ, x ^ 3 + eigenP D * x ^ 2 + eigenQ D * x + eigenR D = (x - l) ^ 3 :=
    fun x => by rw [charpoly_eq_det D hD x, h3 x]
  have e0 := key 0
  have e1 := key 1
  have e2 := key (-1)
  have hp : eigenP D = -(3 * l) := by
    linear_combination (1 / 2 : ℝ) * e1 + (1 / 2 : ℝ) * e2 - e0
  have hq : eigenQ D = 3 * l ^ 2 := by
    linear_combination (1 / 2 : ℝ) * e1 - (1 / 2 : ℝ) * e2
  have hr : eigenR D = -(l ^ 3) := by linear_combination e0
  refine ⟨hp, ?_, ?_⟩
  · simp only [eigenA, hp, hq]; ring
  · simp only [eigenB, hp, hq, hr]; ring

theorem eigenMagn_of_triple_root (D : Mat9 ℝ) (ha : eigenA D = 0) (hb : eigenB D = 0) :
    eigenMagn realLibm D = 0 := by
  have hb0 : eigenB0 D = 0 := by simp only [eigenB0, ha, hb]; norm_num
  have ha0 : eigenA0 D = 0 := by simp only [eigenA0, hb]; norm_num
  have hroot : eigenB0root realLibm D = 0 := by
    unfold eigenB0root
    rw [hb0, if_neg (lt_irrefl _)]
    show Real.sqrt |(0 : ℝ)| = 0
    simp
  unfold eigenMagn
  rw [ha0, hroot]
  show Real.sqrt _ = 0
  simp

/-! ### Eigenvectors: the fallback and the square roots -/

theorem det_shiftMatrix {α : Type} [CommRing α] (D : Mat9 α) (x : α) :
    det (shiftMatrix D x) = -det (charMatrix x D) := by
  simp only [det, shiftMatrix, charMatrix]
  ring

theorem mult_vect_shiftMatrix (D : Mat9 ℝ) (lambda : ℝ) (v : Vec3 ℝ)
    (h : mult_vect D v = fun i => lambda * v i) :
    mult_vect (shiftMatrix D lambda) v = ![0, 0, 0] := by
  have e0 := congrFun h 0
  have e1 := congrFun h 1
  have e2 := congrFun h 2
  simp only [mult_vect, vec3_0, vec3_1, vec3_2] at e0 e1 e2
  apply ext3 <;> simp only [mult_vect, shiftMatrix, identity9, vec9_0, vec9_1, vec9_2, vec9_3,
    vec9_4, vec9_5, vec9_6, vec9_7, vec9_8, vec3_0, vec3_1, vec3_2]
  · linear_combination e0
  · linear_combination e1
  · linear_combination e2

theorem sqrtc_some (dcomp : ℝ → ℝ → Bool) (c x : ℝ) (hx : 0 ≤ x) :
    ∃ s, (if dcomp c 0 = true then some 0 else sqrtChecked realLibm x) = some s := by
  split_ifs
  · exact ⟨0, rfl⟩
  · exact ⟨_, sqrtChecked_of_nonneg x hx⟩

/-- With any comparator that holds at `(0,0)`, for symmetric `D` and `det(lambda*I - D) = 0`
no square root of the generic branch gets a negative argument. -/
theorem eigenvectGeneric_some (dcomp : ℝ → ℝ → Bool) (h00 : dcomp 0 0 = true)
    (D : Mat9 ℝ) (lambda : ℝ) (hD : IsSymm D) (hl : det (charMatrix lambda D) = 0) :
    ∃ raw, eigenvectGeneric realLibm dcomp D lambda = some raw := by
  have hac := minors_relation D lambda hD hl
  unfold eigenvectGeneric
  simp only []
  generalize D 2 * D 2 - (D 0 - lambda) * (D 8 - lambda) = a at hac ⊢
  generalize D 5 * D 5 - (D 4 - lambda) * (D 8 - lambda) = c at hac ⊢
  have hbb : 0 ≤ a * c := by rw [hac]; exact mul_self_nonneg _
  by_cases ha0 : dcomp a 0 = true
  · rw [if_pos ha0]
    by_cases hcpos : c > 0
    · rw [if_pos hcpos, sqrtChecked_of_nonneg c hcpos.le]
      exact ⟨_, rfl⟩
    · rw [if_neg hcpos, sqrtChecked_of_nonneg (-c) (by linarith)]
      exact ⟨_, rfl⟩
  · have hane : a ≠ 0 := fun h => ha0 (by rw [h]; exact h00)
    rw [if_neg ha0]
    by_cases hapos : a > 0
    · have hcnn : 0 ≤ c := by
        by_contra hneg
        have := mul_neg_of_pos_of_neg hapos (not_le.mp hneg)
        linarith
      obtain ⟨s, hs⟩ := sqrtc_some dcomp c c hcnn
      rw [if_pos hapos, sqrtChecked_of_nonneg a hapos.le, hs]
      exact ⟨_, rfl⟩
    · have haneg : a < 0 := lt_of_le_of_ne (not_lt.mp hapos) hane
      have hcnp : c ≤ 0 := by
        by_contra hpos
        have := mul_neg_of_neg_of_pos haneg (not_le.mp hpos)
        linarith
      obtain ⟨s, hs⟩ := sqrtc_some dcomp c (-c) (by linarith)
      rw [if_neg hapos, sqrtChecked_of_nonneg (-a) (by linarith), hs]
      exact ⟨_, rfl⟩

/-! ### Eigenvectors: when the unnormalised vector vanishes -/

/-- Under a comparator that holds at `(0,0)`, the normalisation always yields a vector. -/
theorem normalize_some (dcomp : ℝ → ℝ → Bool) (h00 : dcomp 0 0 = true) (raw : Vec3 ℝ) :
    ∃ v, normalize realLibm dcomp raw = some v := by
  cases hcase : dcomp (norm3 raw) 0
  · have hn : norm3 raw ≠ 0 := fun h => by
      rw [h, h00] at hcase
      exact absurd hcase (by decide)
    exact ⟨_, normalize_of_far dcomp raw hcase hn⟩
  · exact ⟨_, normalize_of_close dcomp raw hcase⟩

/-- The norm of the written vector, when the normalising arm is taken or the vector is
zero. -/
theorem norm3_of_normalize (dcomp : ℝ → ℝ → Bool) (raw v : Vec3 ℝ)
    (hv : normalize realLibm dcomp raw = some v)
    (hmag : dcomp (norm3 raw) 0 = false ∨ raw = 0) : norm3 v = 1 := by
  cases hcase : dcomp (norm3 raw) 0
  · by_cases hn : norm3 raw = 0
    · exfalso
      unfold normalize at hv
      rw [sqrtChecked_of_nonneg _
        (add_nonneg (add_nonneg (mul_self_nonneg _) (mul_self_nonneg _)) (mul_self_nonneg _))]
        at hv
      have h1 : dcomp (Real.sqrt (raw 0 * raw 0 + raw 1 * raw 1 + raw 2 * raw 2)) 0 = false :=
        hcase
      have h2 : Real.sqrt (raw 0 * raw 0 + raw 1 * raw 1 + raw 2 * raw 2) = 0 := hn
      rw [h2] at h1
      simp [h1, h2] at hv
    · rw [normalize_of_far dcomp raw hcase hn] at hv
      rw [← Option.some.inj hv]
      exact norm3_scaled raw hn
  · rcases hmag with h | h
    · rw [hcase] at h
      exact absurd h (by decide)
    · rw [normalize_of_close dcomp raw hcase] at hv
      rw [← Option.some.inj hv, h]
      show Real.sqrt _ = 1
      simp

/-- At `D = diag(-1,1,1)`, `lambda = 0` (not an eigenvalue) the generic branch computes
`a = 1 > 0` and `c = -1` and calls `sqrt(c)`: no vector results. -/
theorem eigenvect_sqrt_negative (dcomp : ℝ → ℝ → Bool) (h1 : dcomp 1 0 = false)
    (hm1 : dcomp (-1) 0 = false) :
    eigenvect realLibm dcomp ![-1, 0, 0, 0, 1, 0, 0, 0, 1] 0 = none := by
  have e1 : (1 : ℝ) - 0 = 1 := by norm_num
  have e2 : (0 : ℝ) * 0 - (-1 - 0) * 1 = 1 := by norm_num
  have e3 : (0 : ℝ) * 0 - 1 * 1 = -1 := by norm_num
  have e4 : (1 : ℝ) > 0 := by norm_num
  have e5 : sqrtChecked realLibm (-1 : ℝ) = none := by
    unfold sqrtChecked
    rw [if_pos (by norm_num)]
  have e6 : sqrtChecked realLibm (1 : ℝ) = some (Real.sqrt 1) :=
    sqrtChecked_of_nonneg 1 (by norm_num)
  have hraw : eigenvectRaw realLibm dcomp ![-1, 0, 0, 0, 1, 0, 0, 0, 1] 0 = none := by
    unfold eigenvectRaw eigenvectGeneric
    simp only [vec9_0, vec9_1, vec9_2, vec9_4, vec9_5, vec9_8, e1, e2, e3, h1, hm1, if_pos e4,
      e5, e6, Bool.false_eq_true, if_false, Option.some_bind, Option.map_none']
  unfold eigenvect
  rw [hraw]
  rfl

/-! ## Claims -/

/-- C1 (amended): for every symmetric real `D` for which `eigen` computes `magn > 1e-24`
or `magn = 0`, the returned triple is the root multiset of the characteristic polynomial:
`(x-l0)(x-l1)(x-l2) = det(x*I - D)` for every `x`, and `l0*l1*l2 = det D`. -/
theorem eigen_roots_charpoly (D : Mat9 ℝ) (hD : IsSymm D)
    (hm : eigenMagn realLibm D > 1e-24 ∨ eigenMagn realLibm D = 0) :
    (∀ x : ℝ, (x - eigen realLibm D 0) * (x - eigen realLibm D 1) * (x - eigen realLibm D 2)
        = det (charMatrix x D))
      ∧ eigen realLibm D 0 * eigen realLibm D 1 * eigen realLibm D 2 = det D := by
  have key : ∀ x : ℝ,
      (x - eigen realLibm D 0) * (x - eigen realLibm D 1) * (x - eigen realLibm D 2)
        = det (charMatrix x D) := fun x => by
    rw [eigen_roots_cubic D (eigenB0_nonneg D hD) hm x, charpoly_eq_det D hD x]
  refine ⟨key, ?_⟩
  have h0 := key 0
  have hdet : det (charMatrix 0 D) = -det D := by
    simp only [det, charMatrix, identity9]
    ring
  rw [hdet] at h0
  linear_combination -h0

/-- C1, at the matrix `diag(1,2,3)`, which goes through the branch `magn > 1e-24`. -/
theorem eigen_roots_charpoly_witness :
    IsSymm (![1, 0, 0, 0, 2, 0, 0, 0, 3] : Mat9 ℝ)
      ∧ eigenMagn realLibm (![1, 0, 0, 0, 2, 0, 0, 0, 3] : Mat9 ℝ) > 1e-24
      ∧ (∀ x : ℝ, (x - eigen realLibm ![1, 0, 0, 0, 2, 0, 0, 0, 3] 0)
            * (x - eigen realLibm ![1, 0, 0, 0, 2, 0, 0, 0, 3] 1)
            * (x - eigen realLibm ![1, 0, 0, 0, 2, 0, 0, 0, 3] 2)
          = det (charMatrix x ![1, 0, 0, 0, 2, 0, 0, 0, 3]))
      ∧ eigen realLibm ![1, 0, 0, 0, 2, 0, 0, 0, 3] 0 * eigen realLibm ![1, 0, 0, 0, 2, 0, 0, 0, 3] 1
          * eigen realLibm ![1, 0, 0, 0, 2, 0, 0, 0, 3] 2
        = det (![1, 0, 0, 0, 2, 0, 0, 0, 3] : Mat9 ℝ) :=
  have hs : IsSymm (![1, 0, 0, 0, 2, 0, 0, 0, 3] : Mat9 ℝ) := ⟨rfl, rfl, rfl⟩
  have hm : eigenMagn realLibm (![1, 0, 0, 0, 2, 0, 0, 0, 3] : Mat9 ℝ) > 1e-24 := by
    have hsq := eigenMagn_sq _ (eigenB0_nonneg _ hs)
    have hnn : 0 ≤ eigenMagn realLibm (![1, 0, 0, 0, 2, 0, 0, 0, 3] : Mat9 ℝ) :=
      Real.sqrt_nonneg _
    have ha : eigenA (![1, 0, 0, 0, 2, 0, 0, 0, 3] : Mat9 ℝ) = -1 := by
      simp only [eigenA, eigenP, eigenQ, vec9_0, vec9_1, vec9_2, vec9_4, vec9_5, vec9_8]
      norm_num
    rw [ha] at hsq
    by_contra hle
    have hle' : eigenMagn realLibm (![1, 0, 0, 0, 2, 0, 0, 0, 3] : Mat9 ℝ) ≤ 1 := by
      have := not_lt.mp hle
      exact le_trans this (by norm_num)
    nlinarith
  ⟨hs, hm, eigen_roots_charpoly _ hs (Or.inl hm)⟩

/-- C1 as stated fails at the symmetric matrix `diag(1e-8, 0, -1e-8)`: there `magn` is
positive but not above `1e-24`, `eigen` writes `(0, 0, 0)`, and at `x = 1e-8` the product
`(x-l0)(x-l1)(x-l2) = 1e-24` differs from `det(x*I - D) = 0`. -/
theorem eigen_roots_charpoly_counterexample :
    IsSymm (![1e-8, 0, 0, 0, 0, 0, 0, 0, -1e-8] : Mat9 ℝ)
      ∧ eigen realLibm (![1e-8, 0, 0, 0, 0, 0, 0, 0, -1e-8] : Mat9 ℝ) = ![0, 0, 0]
      ∧ ((1e-8 : ℝ) - eigen realLibm ![1e-8, 0, 0, 0, 0, 0, 0, 0, -1e-8] 0)
            * (1e-8 - eigen realLibm ![1e-8, 0, 0, 0, 0, 0, 0, 0, -1e-8] 1)
            * (1e-8 - eigen realLibm ![1e-8, 0, 0, 0, 0, 0, 0, 0, -1e-8] 2)
          ≠ det (charMatrix 1e-8 ![1e-8, 0, 0, 0, 0, 0, 0, 0, -1e-8]) := by
  have hs : IsSymm (![1e-8, 0, 0, 0, 0, 0, 0, 0, -1e-8] : Mat9 ℝ) := ⟨rfl, rfl, rfl⟩
  have hp : eigenP (![1e-8, 0, 0, 0, 0, 0, 0, 0, -1e-8] : Mat9 ℝ) = 0 := by
    simp only [eigenP, vec9_0, vec9_4, vec9_8]
    norm_num
  have ha : eigenA (![1e-8, 0, 0, 0, 0, 0, 0, 0, -1e-8] : Mat9 ℝ) = -1e-16 := by
    simp only [eigenA, eigenP, eigenQ, vec9_0, vec9_1, vec9_2, vec9_4, vec9_5, vec9_8]
    norm_num
  have hb0 := eigenB0_nonneg _ hs
  have hfb : ¬ eigenB0 (![1e-8, 0, 0, 0, 0, 0, 0, 0, -1e-8] : Mat9 ℝ) < -1e-10 :=
    not_lt.mpr (le_trans (by norm_num) hb0)
  have hm : ¬ eigenMagn realLibm (![1e-8, 0, 0, 0, 0, 0, 0, 0, -1e-8] : Mat9 ℝ) > 1e-24 := by
    have hsq := eigenMagn_sq _ hb0
    rw [ha] at hsq
    intro hgt
    have h1 : (1e-24 : ℝ) * 1e-24
        < eigenMagn realLibm (![1e-8, 0, 0, 0, 0, 0, 0, 0, -1e-8] : Mat9 ℝ) ^ 2 := by
      have h0 : (0 : ℝ) < 1e-24 := by norm_num
      nlinarith
    rw [hsq] at h1
    norm_num at h1
  have he := eigen_of_magn_small _ hfb hm
  rw [hp] at he
  have he' : eigen realLibm (![1e-8, 0, 0, 0, 0, 0, 0, 0, -1e-8] : Mat9 ℝ) = ![0, 0, 0] := by
    rw [he]; norm_num
  refine ⟨hs, he', ?_⟩
  rw [he']
  simp only [det, charMatrix, identity9, vec9_0, vec9_1, vec9_2, vec9_3, vec9_4, vec9_5, vec9_6,
    vec9_7, vec9_8, Matrix.cons_val_zero, Matrix.cons_val_one, Matrix.cons_val_two,
    Matrix.head_cons, Matrix.tail_cons]
  norm_num

/-- C2: for every input matrix `D` (symmetric or not, the all-zero fallback included) the
triple written by `eigen` is ascending, `lambda[0] <= lambda[1] <= lambda[2]`, because the
comparison-code table sorts every triple; this holds over any ordered field and for any
`<math.h>` functions, in particular over the reals. -/
theorem eigen_sorted {α : Type} [LinearOrderedField α] (m : Libm α) :
    (∀ l0 l1 l2 : α,
        sortTable l0 l1 l2 0 ≤ sortTable l0 l1 l2 1 ∧ sortTable l0 l1 l2 1 ≤ sortTable l0 l1 l2 2)
      ∧ ∀ D : Mat9 α, eigen m D 0 ≤ eigen m D 1 ∧ eigen m D 1 ≤ eigen m D 2 := by
  refine ⟨sortTable_sorted, fun D => ?_⟩
  unfold eigen
  split_ifs
  · simp
  · exact sortTable_sorted _ _ _

/-- C4 (amended): for every real `D`, every `lambda` and any comparator, whenever
`eigenvect` yields a vector (no square root of a negative number is taken), that vector
has Euclidean norm 1 if it comes from the normalising arm (`dcomp(magn, 0.)` false) or is
the fallback for an exactly zero vector; with a comparator that is exact at zero these are
the only cases, so the norm is then always 1.  A vector is yielded for every symmetric `D`
and eigenvalue `lambda` as soon as `dcomp(0,0)` holds. -/
theorem eigenvect_unit_norm (dcomp : ℝ → ℝ → Bool) (D : Mat9 ℝ) (lambda : ℝ) :
    (∀ raw v : Vec3 ℝ, eigenvectRaw realLibm dcomp D lambda = some raw →
        eigenvect realLibm dcomp D lambda = some v →
        (dcomp (norm3 raw) 0 = false ∨ raw = 0) → norm3 v = 1)
      ∧ ((∀ x, dcomp x 0 = true ↔ x = 0) →
          ∀ v : Vec3 ℝ, eigenvect realLibm dcomp D lambda = some v → norm3 v = 1)
      ∧ (dcomp 0 0 = true → IsSymm D → det (charMatrix lambda D) = 0 →
          ∃ v, eigenvect realLibm dcomp D lambda = some v) := by
  have part1 : ∀ raw v : Vec3 ℝ, eigenvectRaw realLibm dcomp D lambda = some raw →
      eigenvect realLibm dcomp D lambda = some v →
      (dcomp (norm3 raw) 0 = false ∨ raw = 0) → norm3 v = 1 := by
    intro raw v hraw hv hmag
    unfold eigenvect at hv
    rw [hraw, Option.some_bind] at hv
    exact norm3_of_normalize dcomp raw v hv hmag
  refine ⟨part1, fun hd v hv => ?_, fun h00 hD hl => ?_⟩
  · cases hraw : eigenvectRaw realLibm dcomp D lambda with
    | none =>
      unfold eigenvect at hv
      rw [hraw] at hv
      exact absurd hv (by simp)
    | some raw =>
      refine part1 raw v hraw hv ?_
      by_cases hz : raw = 0
      · exact Or.inr hz
      · left
        have hn : norm3 raw ≠ 0 := fun h => hz ((norm3_eq_zero_iff raw).mp h)
        cases hcase : dcomp (norm3 raw) 0
        · rfl
        · exact absurd ((hd _).mp hcase) hn
  · have hraw : ∃ raw, eigenvectRaw realLibm dcomp D lambda = some raw := by
      unfold eigenvectRaw
      split_ifs
      · exact ⟨_, rfl⟩
      · exact eigenvectGeneric_some dcomp h00 D lambda hD hl
    obtain ⟨raw, hraw⟩ := hraw
    obtain ⟨v, hv⟩ := normalize_some dcomp h00 raw
    refine ⟨v, ?_⟩
    unfold eigenvect
    rw [hraw, Option.some_bind, hv]

/-- C4, at `D = diag(1,2,3)`, `lambda = 2` with the exact comparator: the unnormalised
vector is `(0,1,0)`, of magnitude 1, and so is the written one. -/
theorem eigenvect_unit_norm_witness :
    eigenvectRaw realLibm dcompExact ![1, 0, 0, 0, 2, 0, 0, 0, 3] 2 = some ![0, 1, 0]
      ∧ eigenvect realLibm dcompExact ![1, 0, 0, 0, 2, 0, 0, 0, 3] 2 = some ![0, 1, 0]
      ∧ dcompExact (norm3 ![0, 1, 0]) 0 = false
      ∧ norm3 ![0, 1, 0] = 1 :=
  have hfar : dcompExact (norm3 ![0, 1, 0]) 0 = false := by
    rw [norm3_unit_y]; norm_num [dcompExact]
  have hv : eigenvect realLibm dcompExact ![1, 0, 0, 0, 2, 0, 0, 0, 3] 2 = some ![0, 1, 0] := by
    unfold eigenvect
    rw [eigenvectRaw_diag123, Option.some_bind,
      normalize_of_far dcompExact _ hfar (by rw [norm3_unit_y]; norm_num), norm3_unit_y]
    norm_num
  ⟨eigenvectRaw_diag123, hv, hfar,
    (eigenvect_unit_norm dcompExact _ 2).1 _ _ eigenvectRaw_diag123 hv (Or.inl hfar)⟩

/-- C4 as stated fails at `D = diag(-1,1,1)`, `lambda = 0`, which is not an eigenvalue
(`det(0*I - D) = 1`): the generic branch computes `a = 1 > 0`, `c = -1` and calls
`sqrt(c)` on a negative number, under the exact comparator and under the tolerance
comparator with epsilon `1e-7` alike, so no vector of norm 1 is written. -/
theorem eigenvect_unit_norm_counterexample :
    det (charMatrix 0 (![-1, 0, 0, 0, 1, 0, 0, 0, 1] : Mat9 ℝ)) = 1
      ∧ eigenvect realLibm dcompExact ![-1, 0, 0, 0, 1, 0, 0, 0, 1] 0 = none
      ∧ eigenvect realLibm (dcompTol 1e-7) ![-1, 0, 0, 0, 1, 0, 0, 0, 1] 0 = none
      ∧ ¬ ∃ v, eigenvect realLibm (dcompTol 1e-7) ![-1, 0, 0, 0, 1, 0, 0, 0, 1] 0 = some v
          ∧ norm3 v = 1 := by
  have hx := eigenvect_sqrt_negative dcompExact (by simp [dcompExact]) (by simp [dcompExact])
  have ht := eigenvect_sqrt_negative (dcompTol (1e-7 : ℝ)) (by norm_num [dcompTol])
    (by norm_num [dcompTol])
  refine ⟨?_, hx, ht, ?_⟩
  · simp only [det, charMatrix, identity9, vec9_0, vec9_1, vec9_2, vec9_3, vec9_4, vec9_5, vec9_6,
      vec9_7, vec9_8]
    norm_num
  · rintro ⟨v, hv, _⟩
    rw [ht] at hv
    exact absurd hv (by simp)

/-- C5: `inverse` returns `det x` and writes the adjugate of `x`, so that
`mult x inv = mult inv x = det x * Identity`, for integer and for real matrices; and for a
real matrix with `det x != 0`, `x * (inv / det x) = Identity`. -/
theorem inverse_adjugate :
    (∀ x : Mat9 ℤ, (inverse x).1 = det x
        ∧ toMatrix (inverse x).2 = (toMatrix x).adjugate
        ∧ mult x (inverse x).2 = mult_scalar identity9 (det x)
        ∧ mult (inverse x).2 x = mult_scalar identity9 (det x))
      ∧ (∀ x : Mat9 ℝ, (inverse x).1 = det x
        ∧ toMatrix (inverse x).2 = (toMatrix x).adjugate
        ∧ mult x (inverse x).2 = mult_scalar identity9 (det x)
        ∧ mult (inverse x).2 x = mult_scalar identity9 (det x)
        ∧ (det x ≠ 0 → mult x (fun i => (inverse x).2 i / det x) = identity9)) := by
  have gen : ∀ {α : Type} [CommRing α] (x : Mat9 α), (inverse x).1 = det x
        ∧ toMatrix (inverse x).2 = (toMatrix x).adjugate
        ∧ mult x (inverse x).2 = mult_scalar identity9 (det x)
        ∧ mult (inverse x).2 x = mult_scalar identity9 (det x) := by
    intro α _ x
    refine ⟨rfl, ?_, ?_, ?_⟩
    · rw [Matrix.adjugate_fin_three]
      ext i j
      fin_cases i <;> fin_cases j <;> simp [toMatrix, inverse] <;> first | rfl | ring
    · apply ext9 <;> simp only [mult, inverse, mult_scalar, identity9, det, vec9_0, vec9_1,
        vec9_2, vec9_3, vec9_4, vec9_5, vec9_6, vec9_7, vec9_8] <;> ring
    · apply ext9 <;> simp only [mult, inverse, mult_scalar, identity9, det, vec9_0, vec9_1,
        vec9_2, vec9_3, vec9_4, vec9_5, vec9_6, vec9_7, vec9_8] <;> ring
  refine ⟨fun x => gen x, fun x => ?_⟩
  obtain ⟨h1, h2, h3, h4⟩ := gen x
  refine ⟨h1, h2, h3, h4, fun hd => ?_⟩
  have hd' : x 0 * (x 4 * x 8 - x 5 * x 7) + x 1 * (x 6 * x 5 - x 3 * x 8)
      + x 2 * (x 3 * x 7 - x 6 * x 4) ≠ 0 := hd
  apply ext9 <;> simp only [mult, inverse, identity9, det, vec9_0, vec9_1,
        vec9_2, vec9_3, vec9_4, vec9_5, vec9_6, vec9_7, vec9_8] <;> field_simp <;> ring

/-- C5, at the matrix `diag(2,1,1)`, whose determinant is `2`. -/
theorem inverse_adjugate_witness :
    det (![2, 0, 0, 0, 1, 0, 0, 0, 1] : Mat9 ℝ) ≠ 0
      ∧ mult (![2, 0, 0, 0, 1, 0, 0, 0, 1] : Mat9 ℝ)
          (fun i => (inverse (![2, 0, 0, 0, 1, 0, 0, 0, 1] : Mat9 ℝ)).2 i
            / det (![2, 0, 0, 0, 1, 0, 0, 0, 1] : Mat9 ℝ)) = identity9 :=
  ⟨by simp [det], (inverse_adjugate.2 _).2.2.2.2 (by simp [det])⟩

/-- C6: `square x` equals the full product `mult (transpose x) x` in all nine entries, and
is therefore symmetric. -/
theorem square_eq_mult_transpose {α : Type} [CommRing α] (x : Mat9 α) :
    square x = mult (transpose x) x ∧ IsSymm (mult (transpose x) x) ∧ IsSymm (square x) := by
  have h : square x = mult (transpose x) x := by
    rw [transpose_eq]
    apply ext9 <;> simp only [square, mult, vec9_0, vec9_1, vec9_2, vec9_3, vec9_4, vec9_5,
      vec9_6, vec9_7, vec9_8] <;> ring
  refine ⟨h, ?_, ⟨rfl, rfl, rfl⟩⟩
  rw [← h]
  exact ⟨rfl, rfl, rfl⟩

/-- C7: `rotate(A, 0) = A` and `rotate(rotate(A, 1), 2) = A`. -/
theorem rotate_zero_and_one_two {α : Type} [CommRing α] (A : Mat9 α) :
    rotate A 0 = some A ∧ (rotate A 1).bind (fun B => rotate B 2) = some A := by
  constructor
  · unfold rotate
    rw [dif_pos (by decide)]
    congr 1
    apply ext9 <;> rfl
  · unfold rotate
    rw [dif_pos (by decide)]
    simp only [Option.some_bind]
    rw [dif_pos (by decide)]
    congr 1
    apply ext9 <;> rfl

/-- C8 at `rot = -1`: for output position 0 the subscript `index(0, ((0%3)+(-1))%3)` is
`-1`, outside `0..8`, and for output position 3 it is `2` where `idx(1, (0-1) mod 3) = 5`;
so `rotate` has no defined result. -/
theorem rotate_neg_one_out_of_bounds :
    rotateIdx 0 (-1) = -1 ∧ rotateIdx 3 (-1) = 2
      ∧ ∀ a : Mat9 ℤ, rotate a (-1) = none := by
  refine ⟨by decide, by decide, fun a => ?_⟩
  unfold rotate
  rw [dif_neg]
  decide

/-- C9: `det x` is the determinant of the matrix `M` with `M[i][j] = x[3*i+j]`, and equals
its cofactor expansion along row 0, exactly over the integers. -/
theorem det_eq_matrix_det (x : Mat9 ℤ) :
    det x = (toMatrix x).det
      ∧ det x = ∑ j : Fin 3, (-1) ^ (j : ℕ) * toMatrix x 0 j
          * ((toMatrix x).submatrix Fin.succ (Fin.succAbove j)).det := by
  refine ⟨det_eq_toMatrix_det x, ?_⟩
  rw [det_eq_toMatrix_det x, Matrix.det_succ_row_zero]

/-- C10: whenever `eigen` does not take the all-zero fallback (`b0 >= -1e-10`), the three
returned values sum to the trace `D[0] + D[4] + D[8]`, whichever `magn` branch is taken;
and the fallback is never taken for a symmetric `D`. -/
theorem eigen_sum_eq_trace (D : Mat9 ℝ) :
    (-1e-10 ≤ eigenB0 D →
        eigen realLibm D 0 + eigen realLibm D 1 + eigen realLibm D 2 = D 0 + D 4 + D 8)
      ∧ (IsSymm D → -1e-10 ≤ eigenB0 D) := by
  constructor
  · intro h
    unfold eigen
    rw [if_neg (not_lt.mpr h), sortTable_sum, eigenUnsorted_sum]
  · intro h
    exact le_trans (by norm_num) (eigenB0_nonneg D h)

/-- C10, at the matrix `diag(1,2,3)`. -/
theorem eigen_sum_eq_trace_witness :
    -1e-10 ≤ eigenB0 (![1, 0, 0, 0, 2, 0, 0, 0, 3] : Mat9 ℝ)
      ∧ eigen realLibm (![1, 0, 0, 0, 2, 0, 0, 0, 3] : Mat9 ℝ) 0
          + eigen realLibm (![1, 0, 0, 0, 2, 0, 0, 0, 3] : Mat9 ℝ) 1
          + eigen realLibm (![1, 0, 0, 0, 2, 0, 0, 0, 3] : Mat9 ℝ) 2
        = (![1, 0, 0, 0, 2, 0, 0, 0, 3] : Mat9 ℝ) 0 + (![1, 0, 0, 0, 2, 0, 0, 0, 3] : Mat9 ℝ) 4
          + (![1, 0, 0, 0, 2, 0, 0, 0, 3] : Mat9 ℝ) 8 :=
  have h : -1e-10 ≤ eigenB0 (![1, 0, 0, 0, 2, 0, 0, 0, 3] : Mat9 ℝ) := by
    simp only [eigenB0, eigenB, eigenA, eigenP, eigenQ, eigenR, vec9_0, vec9_1, vec9_2, vec9_3,
      vec9_4, vec9_5, vec9_6, vec9_7, vec9_8]
    norm_num
  ⟨h, (eigen_sum_eq_trace _).1 h⟩

/-- C11: `mult a b` writes `c[idx(i,j)] = a[idx(i,0)]*b[idx(0,j)] + a[idx(i,1)]*b[idx(1,j)]
+ a[idx(i,2)]*b[idx(2,j)]`, which is the matrix product of the two 3 x 3 matrices, and
`mult_vect a v` writes `c[i] = sum over j of a[idx(i,j)]*v[j]`; `idx(i,j)` is the source's
`index(i,j) = 3*i + j`. -/
theorem mult_entries {α : Type} [CommRing α] (a b : Mat9 α) (v : Vec3 α) :
    (∀ i j : Fin 3, ((idx i j).val : Int) = index i.val j.val)
      ∧ (∀ i j : Fin 3, mult a b (idx i j)
          = a (idx i 0) * b (idx 0 j) + a (idx i 1) * b (idx 1 j) + a (idx i 2) * b (idx 2 j))
      ∧ toMatrix (mult a b) = toMatrix a * toMatrix b
      ∧ (∀ i : Fin 3, mult_vect a v i = ∑ j : Fin 3, a (idx i j) * v j)
      ∧ mult_vect a v = (toMatrix a).mulVec v := by
  have hm : ∀ i j : Fin 3, mult a b (idx i j)
      = a (idx i 0) * b (idx 0 j) + a (idx i 1) * b (idx 1 j) + a (idx i 2) * b (idx 2 j) := by
    intro i j
    fin_cases i <;> fin_cases j <;> rfl
  have hv : ∀ i : Fin 3, mult_vect a v i = ∑ j : Fin 3, a (idx i j) * v j := by
    intro i
    rw [Fin.sum_univ_three]
    fin_cases i <;> rfl
  refine ⟨idx_eq_index, hm, ?_, hv, ?_⟩
  · ext i j
    rw [Matrix.mul_apply, Fin.sum_univ_three]
    exact hm i j
  · funext i
    rw [hv i]
    rfl

/-- C12: for a symmetric metric, `magnsq metric u` equals the full bilinear form
`innerprod u metric u = sum over i,j of u[i]*metric[idx(i,j)]*u[j]`, which equals the dot
product of `u` with `mult_vect metric u`. -/
theorem magnsq_eq_innerprod {α : Type} [CommRing α] (metric : Mat9 α) (u : Vec3 α)
    (h : IsSymm metric) :
    magnsq metric u = innerprod u metric u
      ∧ innerprod u metric u = ∑ i : Fin 3, ∑ j : Fin 3, u i * metric (idx i j) * u j
      ∧ innerprod u metric u = dot3 u (mult_vect metric u) := by
  obtain ⟨h1, h2, h3⟩ := h
  refine ⟨?_, ?_, ?_⟩
  · simp only [magnsq, innerprod, ← h1, ← h2, ← h3]
    ring
  · simp only [Fin.sum_univ_three]
    show innerprod u metric u = u 0 * metric 0 * u 0 + u 0 * metric 1 * u 1 + u 0 * metric 2 * u 2
      + (u 1 * metric 3 * u 0 + u 1 * metric 4 * u 1 + u 1 * metric 5 * u 2)
      + (u 2 * metric 6 * u 0 + u 2 * metric 7 * u 1 + u 2 * metric 8 * u 2)
    simp only [innerprod]
    ring
  · simp only [innerprod, dot3, mult_vect, vec3_0, vec3_1, vec3_2]
    ring

/-- C12, at the symmetric metric `[[2,1,0],[1,2,0],[0,0,3]]` and `u = (1,2,3)`. -/
theorem magnsq_eq_innerprod_witness :
    IsSymm (![2, 1, 0, 1, 2, 0, 0, 0, 3] : Mat9 ℤ)
      ∧ magnsq (![2, 1, 0, 1, 2, 0, 0, 0, 3] : Mat9 ℤ) ![1, 2, 3]
          = innerprod ![1, 2, 3] (![2, 1, 0, 1, 2, 0, 0, 0, 3] : Mat9 ℤ) ![1, 2, 3]
      ∧ magnsq (![2, 1, 0, 1, 2, 0, 0, 0, 3] : Mat9 ℤ) ![1, 2, 3] = 41 :=
  have hs : IsSymm (![2, 1, 0, 1, 2, 0, 0, 0, 3] : Mat9 ℤ) := ⟨rfl, rfl, rfl⟩
  ⟨hs, (magnsq_eq_innerprod _ _ hs).1, by decide⟩

/-- C13: when the value of `b0` is strictly below `-1e-10`, `eigen` writes `(0, 0, 0)`
whatever the `<math.h>` functions would return (none of them is consulted); when
`b0 >= -1e-10` the fallback is not taken and the sorted Cardano values are written.  The
test is stated on the code from `if (b0 < -1e-10)` on, which is all of `eigen` after `b0`
has been computed. -/
theorem eigen_fallback {α : Type} [LinearOrderedField α] (m : Libm α) :
    (∀ D : Mat9 α, eigen m D = eigenFrom m (eigenP D) (eigenA0 D) (eigenB0 D))
      ∧ (∀ p a0 b0 : α, b0 < -1e-10 → eigenFrom m p a0 b0 = ![0, 0, 0])
      ∧ (∀ D : Mat9 α, -1e-10 ≤ eigenB0 D →
          eigen m D = sortTable (eigenUnsorted m D 0) (eigenUnsorted m D 1)
            (eigenUnsorted m D 2)) := by
  refine ⟨fun D => rfl, fun p a0 b0 h => ?_, fun D h => ?_⟩
  · unfold eigenFrom
    rw [if_pos h]
  · unfold eigen
    rw [if_neg (not_lt.mpr h)]

/-- C13, at `b0 = -1` (with `p = a0 = 0`) for the fallback, and at `D = diag(1,2,3)` for
the other branch. -/
theorem eigen_fallback_witness :
    (-1 : ℝ) < -1e-10 ∧ eigenFrom realLibm 0 0 (-1) = ![0, 0, 0]
      ∧ -1e-10 ≤ eigenB0 (![1, 0, 0, 0, 2, 0, 0, 0, 3] : Mat9 ℝ)
      ∧ eigen realLibm (![1, 0, 0, 0, 2, 0, 0, 0, 3] : Mat9 ℝ)
          = sortTable (eigenUnsorted realLibm ![1, 0, 0, 0, 2, 0, 0, 0, 3] 0)
              (eigenUnsorted realLibm ![1, 0, 0, 0, 2, 0, 0, 0, 3] 1)
              (eigenUnsorted realLibm ![1, 0, 0, 0, 2, 0, 0, 0, 3] 2) :=
  have h1 : (-1 : ℝ) < -1e-10 := by norm_num
  have h2 : -1e-10 ≤ eigenB0 (![1, 0, 0, 0, 2, 0, 0, 0, 3] : Mat9 ℝ) :=
    le_trans (by norm_num) (eigenB0_nonneg_any _)
  ⟨h1, (eigen_fallback realLibm).2.1 0 0 (-1) h1, h2, (eigen_fallback realLibm).2.2 _ h2⟩

/-- C14 at `D = [[0,0,0],[0,0,1e-4],[0,1e-4,0]]`, `lambda = 0`, under the tolerance
comparator with epsilon `1e-7`: the unnormalised vector is `(-1e-8, 0, 0)`, its norm `1e-8`
is within tolerance of zero, and `eigenvect` writes `(-1e-8, 0, 1)`, not `(0, 0, 1)`: the
fallback overwrites `vect[2]` only. -/
theorem eigenvect_fallback_keeps_components :
    eigenvectRaw realLibm (dcompTol 1e-7) ![0, 0, 0, 0, 0, 1e-4, 0, 1e-4, 0] 0
        = some ![-1e-8, 0, 0]
      ∧ dcompTol (1e-7 : ℝ) (norm3 ![-1e-8, 0, 0]) 0 = true
      ∧ eigenvect realLibm (dcompTol 1e-7) ![0, 0, 0, 0, 0, 1e-4, 0, 1e-4, 0] 0
        = some ![-1e-8, 0, 1]
      ∧ (![-1e-8, 0, 1] : Vec3 ℝ) ≠ ![0, 0, 1] := by
  have hraw : eigenvectRaw realLibm (dcompTol 1e-7) ![0, 0, 0, 0, 0, 1e-4, 0, 1e-4, 0] 0
      = some ![-1e-8, 0, 0] := by
    have h0 : dcompTol (1e-7 : ℝ) ((0 : ℝ) - 0) 0 = true := by norm_num [dcompTol]
    unfold eigenvectRaw
    simp only [vec9_8]
    rw [if_pos h0]
    simp only [eigenvectDegenerate, vec9_0, vec9_1, vec9_2, vec9_4, vec9_5]
    norm_num
  have hn : norm3 ![-1e-8, 0, 0] = 1e-8 := by
    show Real.sqrt _ = _
    simp only [vec3_0, vec3_1, vec3_2]
    have : (-1e-8 : ℝ) * -1e-8 + 0 * 0 + 0 * 0 = 1e-8 ^ 2 := by norm_num
    rw [this, Real.sqrt_sq (by norm_num)]
  have hclose : dcompTol (1e-7 : ℝ) (norm3 ![-1e-8, 0, 0]) 0 = true := by
    rw [hn]
    norm_num [dcompTol, abs_of_pos]
  refine ⟨hraw, hclose, ?_, ?_⟩
  · unfold eigenvect
    rw [hraw, Option.some_bind, normalize_of_close _ _ hclose]
    rfl
  · intro h
    have := congrFun h 0
    simp only [vec3_0] at this
    norm_num at this

/-- C15: for every real `D` for which `eigen` computes `b0 >= 0` and `magn > 1e-24`, the
returned triple is the root multiset of the cubic built in `eigen`:
`(x-l0)(x-l1)(x-l2) = x^3 + p*x^2 + q*x + r` for every `x`; here `cube(magn)` is the cube
root of `magn`, `theta = atan2(sqrt(b0), a0)`, and the sort only permutes the values
`ApB - p/3`, `-ApB/2 + sqrt(3)/2*AmB - p/3`, `-ApB/2 - sqrt(3)/2*AmB - p/3` with
`ApB = 2*cos(theta/3)*cube(magn)`, `AmB = 2*sin(theta/3)*cube(magn)`. -/
theorem eigen_roots_of_cubic (D : Mat9 ℝ) (h : 0 ≤ eigenB0 D)
    (hm : eigenMagn realLibm D > 1e-24) :
    (∀ x : ℝ, (x - eigen realLibm D 0) * (x - eigen realLibm D 1) * (x - eigen realLibm D 2)
        = x ^ 3 + eigenP D * x ^ 2 + eigenQ D * x + eigenR D)
      ∧ cube realLibm (eigenMagn realLibm D) = Real.exp (Real.log (eigenMagn realLibm D) / 3)
      ∧ cube realLibm (eigenMagn realLibm D) ^ 3 = eigenMagn realLibm D
      ∧ eigenTheta realLibm D = Complex.arg ⟨eigenA0 D, Real.sqrt (eigenB0 D)⟩
      ∧ eigenApB realLibm D
          = 2 * Real.cos (eigenTheta realLibm D / 3) * cube realLibm (eigenMagn realLibm D)
      ∧ eigenAmB realLibm D
          = 2 * Real.sin (eigenTheta realLibm D / 3) * cube realLibm (eigenMagn realLibm D)
      ∧ eigenUnsorted realLibm D 0 = eigenApB realLibm D - eigenP D / 3
      ∧ eigenUnsorted realLibm D 1
          = -(eigenApB realLibm D) / 2 + Real.sqrt 3 / 2 * eigenAmB realLibm D - eigenP D / 3
      ∧ eigenUnsorted realLibm D 2
          = -(eigenApB realLibm D) / 2 - Real.sqrt 3 / 2 * eigenAmB realLibm D - eigenP D / 3
      ∧ (eigen realLibm D
            = ![eigenUnsorted realLibm D 0, eigenUnsorted realLibm D 1, eigenUnsorted realLibm D 2]
        ∨ eigen realLibm D
            = ![eigenUnsorted realLibm D 0, eigenUnsorted realLibm D 2, eigenUnsorted realLibm D 1]
        ∨ eigen realLibm D
            = ![eigenUnsorted realLibm D 1, eigenUnsorted realLibm D 0, eigenUnsorted realLibm D 2]
        ∨ eigen realLibm D
            = ![eigenUnsorted realLibm D 1, eigenUnsorted realLibm D 2, eigenUnsorted realLibm D 0]
        ∨ eigen realLibm D
            = ![eigenUnsorted realLibm D 2, eigenUnsorted realLibm D 0, eigenUnsorted realLibm D 1]
        ∨ eigen realLibm D
            = ![eigenUnsorted realLibm D 2, eigenUnsorted realLibm D 1, eigenUnsorted realLibm D 0])
    := by
  have hpos : 0 < eigenMagn realLibm D := lt_trans (by norm_num) hm
  have hfb : ¬ eigenB0 D < -1e-10 := not_lt.mpr (le_trans (by norm_num) h)
  have hroot : eigenB0root realLibm D = Real.sqrt (eigenB0 D) := by
    unfold eigenB0root
    split_ifs with hp
    · rfl
    · show Real.sqrt |eigenB0 D| = _
      rw [abs_of_nonneg h]
  have he : eigen realLibm D = sortTable (eigenUnsorted realLibm D 0)
      (eigenUnsorted realLibm D 1) (eigenUnsorted realLibm D 2) := by
    unfold eigen
    rw [if_neg hfb]
  refine ⟨fun x => eigen_roots_cubic D h (Or.inl hm) x, rfl, cube_pow_three _ hpos, ?_, ?_, ?_,
    rfl, ?_, ?_, ?_⟩
  · show Complex.arg ⟨eigenA0 D, eigenB0root realLibm D⟩ = _
    rw [hroot]
  · unfold eigenApB
    rw [if_pos hm]
    rfl
  · unfold eigenAmB
    rw [if_pos hm]
    rfl
  · show -0.5 * eigenApB realLibm D + Real.sqrt 0.75 * eigenAmB realLibm D - eigenP D / 3 = _
    rw [sqrt_three_quarters]
    norm_num
    ring
  · show -0.5 * eigenApB realLibm D - Real.sqrt 0.75 * eigenAmB realLibm D - eigenP D / 3 = _
    rw [sqrt_three_quarters]
    norm_num
    ring
  · rw [he]
    exact sortTable_perm _ _ _

/-- C15, at the spec's matrix `[[2,1,0],[1,2,0],[0,0,3]]`, where `b0 = 0` and
`magn = 8/27`. -/
theorem eigen_roots_of_cubic_witness :
    0 ≤ eigenB0 (![2, 1, 0, 1, 2, 0, 0, 0, 3] : Mat9 ℝ)
      ∧ eigenMagn realLibm (![2, 1, 0, 1, 2, 0, 0, 0, 3] : Mat9 ℝ) > 1e-24
      ∧ ∀ x : ℝ, (x - eigen realLibm ![2, 1, 0, 1, 2, 0, 0, 0, 3] 0)
            * (x - eigen realLibm ![2, 1, 0, 1, 2, 0, 0, 0, 3] 1)
            * (x - eigen realLibm ![2, 1, 0, 1, 2, 0, 0, 0, 3] 2)
          = x ^ 3 + eigenP (![2, 1, 0, 1, 2, 0, 0, 0, 3] : Mat9 ℝ) * x ^ 2
            + eigenQ (![2, 1, 0, 1, 2, 0, 0, 0, 3] : Mat9 ℝ) * x
            + eigenR (![2, 1, 0, 1, 2, 0, 0, 0, 3] : Mat9 ℝ) :=
  have h0 := eigenB0_nonneg_any (![2, 1, 0, 1, 2, 0, 0, 0, 3] : Mat9 ℝ)
  have hm : eigenMagn realLibm (![2, 1, 0, 1, 2, 0, 0, 0, 3] : Mat9 ℝ) > 1e-24 := by
    rw [specMatrix_magn]; norm_num
  ⟨h0, hm, (eigen_roots_of_cubic _ h0 hm).1⟩

/-- C16: in exact real arithmetic with the exact comparator, for every symmetric `D` and
every `lambda` with `det(D - lambda*I) = 0`, the vector `v` that `eigenvect` holds just
before normalisation is defined and satisfies `(D - lambda*I)*v = 0`, in the degenerate
branch (`D[8] = lambda`) and in the generic branch alike; and whenever that vector is
non-zero, `eigenvect` returns a unit-norm eigenvector of `D` for `lambda`. -/
theorem eigenvect_kernel_exact (D : Mat9 ℝ) (lambda : ℝ) (hD : IsSymm D)
    (hl : det (shiftMatrix D lambda) = 0) :
    ∃ raw, eigenvectRaw realLibm dcompExact D lambda = some raw
      ∧ (D 8 = lambda → raw = eigenvectDegenerate D lambda)
      ∧ (D 8 ≠ lambda → eigenvectGeneric realLibm dcompExact D lambda = some raw)
      ∧ mult_vect (shiftMatrix D lambda) raw = ![0, 0, 0]
      ∧ (raw ≠ 0 → ∃ v, eigenvect realLibm dcompExact D lambda = some v
          ∧ mult_vect D v = (fun i => lambda * v i) ∧ norm3 v = 1) := by
  have hl' : det (charMatrix lambda D) = 0 := by
    have := det_shiftMatrix D lambda
    rw [hl] at this
    linarith
  obtain ⟨raw, hraw, hker⟩ := eigenvectRaw_kernel dcompExact dcompExact_zero D lambda hD hl'
  refine ⟨raw, hraw, fun h8 => ?_, fun h8 => ?_, mult_vect_shiftMatrix D lambda raw hker,
    fun hnz => ?_⟩
  · have hc : dcompExact (D 8 - lambda) 0 = true := (dcompExact_zero _).mpr (by linarith)
    unfold eigenvectRaw at hraw
    rw [if_pos hc] at hraw
    exact (Option.some.inj hraw).symm
  · have hc : ¬ dcompExact (D 8 - lambda) 0 = true := fun h =>
      h8 (by have := (dcompExact_zero _).mp h; linarith)
    unfold eigenvectRaw at hraw
    rw [if_neg hc] at hraw
    exact hraw
  · have hn : norm3 raw ≠ 0 := fun h => hnz ((norm3_eq_zero_iff raw).mp h)
    have hfar : dcompExact (norm3 raw) 0 = false := by
      cases hcase : dcompExact (norm3 raw) 0
      · rfl
      · exact absurd ((dcompExact_zero _).mp hcase) hn
    refine ⟨_, ?_, mult_vect_scaled D lambda (1 / norm3 raw) raw hker, norm3_scaled raw hn⟩
    unfold eigenvect
    rw [hraw, Option.some_bind, normalize_of_far dcompExact raw hfar hn]

/-- C16, at the spec's matrix `[[2,1,0],[1,2,0],[0,0,3]]` and its eigenvalue `lambda = 1`. -/
theorem eigenvect_kernel_exact_witness :
    IsSymm (![2, 1, 0, 1, 2, 0, 0, 0, 3] : Mat9 ℝ)
      ∧ det (shiftMatrix (![2, 1, 0, 1, 2, 0, 0, 0, 3] : Mat9 ℝ) 1) = 0
      ∧ ∃ raw, eigenvectRaw realLibm dcompExact (![2, 1, 0, 1, 2, 0, 0, 0, 3] : Mat9 ℝ) 1
            = some raw
          ∧ mult_vect (shiftMatrix (![2, 1, 0, 1, 2, 0, 0, 0, 3] : Mat9 ℝ) 1) raw = ![0, 0, 0] :=
  have hs : IsSymm (![2, 1, 0, 1, 2, 0, 0, 0, 3] : Mat9 ℝ) := ⟨rfl, rfl, rfl⟩
  have hdet : det (shiftMatrix (![2, 1, 0, 1, 2, 0, 0, 0, 3] : Mat9 ℝ) 1) = 0 := by
    simp only [det, shiftMatrix, identity9, vec9_0, vec9_1, vec9_2, vec9_3, vec9_4, vec9_5,
      vec9_6, vec9_7, vec9_8]
    norm_num
  ⟨hs, hdet, (eigenvect_kernel_exact _ 1 hs hdet).imp fun _ h => ⟨h.1, h.2.2.2.1⟩⟩

/-- C17: in exact arithmetic (rational, and real), for every symmetric `D` the discriminant
term `b0 = -(b^2/4 + a^3/27)` with `a = q - p^2/3`, `b = 2p^3/27 - p*q/3 + r` is
non-negative; hence `eigen` never takes the `b0 < -1e-10` fallback for symmetric input,
and the clamp `sqrt(fabs(b0))` coincides with `sqrt(b0)`. -/
theorem eigenB0_nonneg_of_symm :
    (∀ D : Mat9 ℚ, IsSymm D →
        eigenB0 D = -(eigenB D ^ 2 / 4 + eigenA D ^ 3 / 27)
        ∧ eigenA D = eigenQ D - eigenP D ^ 2 / 3
        ∧ eigenB D = 2 * eigenP D ^ 3 / 27 - eigenP D * eigenQ D / 3 + eigenR D
        ∧ 0 ≤ eigenB0 D ∧ ¬ eigenB0 D < -1e-10 ∧ |eigenB0 D| = eigenB0 D)
      ∧ (∀ D : Mat9 ℝ, IsSymm D →
        0 ≤ eigenB0 D ∧ ¬ eigenB0 D < -1e-10 ∧ |eigenB0 D| = eigenB0 D
        ∧ eigenB0root realLibm D = Real.sqrt (eigenB0 D)
        ∧ eigen realLibm D = sortTable (eigenUnsorted realLibm D 0)
            (eigenUnsorted realLibm D 1) (eigenUnsorted realLibm D 2)) := by
  constructor
  · intro D h
    have h0 := eigenB0_nonneg_rat D h
    obtain ⟨f1, f2, f3⟩ := eigenB0_formula D
    exact ⟨f1, f2, f3, h0, not_lt.mpr (le_trans (by norm_num) h0), abs_of_nonneg h0⟩
  · intro D h
    have h0 := eigenB0_nonneg D h
    have hfb : ¬ eigenB0 D < -1e-10 := not_lt.mpr (le_trans (by norm_num) h0)
    refine ⟨h0, hfb, abs_of_nonneg h0, ?_, ?_⟩
    · unfold eigenB0root
      split_ifs with hpos
      · rfl
      · show Real.sqrt |eigenB0 D| = _
        rw [abs_of_nonneg h0]
    · unfold eigen
      rw [if_neg hfb]

/-- C17, at the symmetric rational matrix `[[2,1,0],[1,2,0],[0,0,3]]`, where `b0 = 0`. -/
theorem eigenB0_nonneg_of_symm_witness :
    IsSymm (![2, 1, 0, 1, 2, 0, 0, 0, 3] : Mat9 ℚ)
      ∧ 0 ≤ eigenB0 (![2, 1, 0, 1, 2, 0, 0, 0, 3] : Mat9 ℚ)
      ∧ ¬ eigenB0 (![2, 1, 0, 1, 2, 0, 0, 0, 3] : Mat9 ℚ) < -1e-10 :=
  have hs : IsSymm (![2, 1, 0, 1, 2, 0, 0, 0, 3] : Mat9 ℚ) := ⟨rfl, rfl, rfl⟩
  ⟨hs, (eigenB0_nonneg_of_symm.1 _ hs).2.2.2.1, (eigenB0_nonneg_of_symm.1 _ hs).2.2.2.2.1⟩

/-- C18: for symmetric `D` the coefficients computed by `eigen` satisfy
`x^3 + p*x^2 + q*x + r = det(x*I - D)` with the repository's `det`; `p = -(D[0]+D[4]+D[8])`
and `r = -det D`; and substituting `x = y - p/3` gives `y^3 + a*y + b` with
`a = q - p^2/3`, `b = 2p^3/27 - p*q/3 + r`. -/
theorem charpoly_coefficients {α : Type} [LinearOrderedField α] (D : Mat9 α) (h : IsSymm D) :
    (∀ x : α, x ^ 3 + eigenP D * x ^ 2 + eigenQ D * x + eigenR D = det (charMatrix x D))
      ∧ eigenP D = -(D 0 + D 4 + D 8)
      ∧ eigenR D = -det D
      ∧ (∀ y : α, (y - eigenP D / 3) ^ 3 + eigenP D * (y - eigenP D / 3) ^ 2
          + eigenQ D * (y - eigenP D / 3) + eigenR D = y ^ 3 + eigenA D * y + eigenB D)
      ∧ eigenA D = eigenQ D - eigenP D ^ 2 / 3
      ∧ eigenB D = 2 * eigenP D ^ 3 / 27 - eigenP D * eigenQ D / 3 + eigenR D := by
  obtain ⟨_, f2, f3⟩ := eigenB0_formula D
  refine ⟨charpoly_eq_det D h, rfl, ?_, fun y => ?_, f2, f3⟩
  · obtain ⟨h1, h2, h3⟩ := h
    simp only [eigenR, det, ← h1, ← h2, ← h3]
    ring
  · rw [f2, f3]
    field_simp
    ring

/-- C18, at the symmetric rational matrix `[[2,1,0],[1,2,0],[0,0,3]]`: the cubic is
`x^3 - 7x^2 + 15x - 9`. -/
theorem charpoly_coefficients_witness :
    IsSymm (![2, 1, 0, 1, 2, 0, 0, 0, 3] : Mat9 ℚ)
      ∧ eigenP (![2, 1, 0, 1, 2, 0, 0, 0, 3] : Mat9 ℚ) = -7
      ∧ eigenQ (![2, 1, 0, 1, 2, 0, 0, 0, 3] : Mat9 ℚ) = 15
      ∧ eigenR (![2, 1, 0, 1, 2, 0, 0, 0, 3] : Mat9 ℚ) = -9
      ∧ eigenR (![2, 1, 0, 1, 2, 0, 0, 0, 3] : Mat9 ℚ)
          = -det (![2, 1, 0, 1, 2, 0, 0, 0, 3] : Mat9 ℚ) :=
  have hs : IsSymm (![2, 1, 0, 1, 2, 0, 0, 0, 3] : Mat9 ℚ) := ⟨rfl, rfl, rfl⟩
  ⟨hs,
    by simp only [eigenP, vec9_0, vec9_4, vec9_8]; norm_num,
    by simp only [eigenQ, vec9_0, vec9_1, vec9_2, vec9_4, vec9_5, vec9_8]; norm_num,
    by simp only [eigenR, vec9_0, vec9_1, vec9_2, vec9_4, vec9_5, vec9_8]; norm_num,
    (charpoly_coefficients _ hs).2.2.1⟩

/-- C19 (amended): for every symmetric real `D` whose three eigenvalues coincide
(characteristic polynomial `(x - l)^3`), `eigen` computes `magn = 0 <= 1e-24`, goes through
the branch that sets `ApB = AmB = 0` and returns `(l, l, l)`; for the spec's matrix
`[[2,1,0],[1,2,0],[0,0,3]]`, whose eigenvalue 3 is only double, `magn = 8/27 > 1e-24` and
`eigen` returns `(1, 3, 3)` through the branch `magn > 1e-24`. -/
theorem eigen_triple_eigenvalue (D : Mat9 ℝ) (l : ℝ) (hD : IsSymm D)
    (h3 : ∀ x : ℝ, det (charMatrix x D) = (x - l) ^ 3) :
    (eigenMagn realLibm D = 0 ∧ eigenMagn realLibm D ≤ 1e-24
        ∧ eigenApB realLibm D = 0 ∧ eigenAmB realLibm D = 0
        ∧ eigen realLibm D = ![l, l, l])
      ∧ (eigenMagn realLibm (![2, 1, 0, 1, 2, 0, 0, 0, 3] : Mat9 ℝ) = 8 / 27
        ∧ eigenMagn realLibm (![2, 1, 0, 1, 2, 0, 0, 0, 3] : Mat9 ℝ) > 1e-24
        ∧ eigen realLibm (![2, 1, 0, 1, 2, 0, 0, 0, 3] : Mat9 ℝ) = ![1, 3, 3]) := by
  obtain ⟨hp, ha, hb⟩ := triple_root_coeffs D l hD h3
  have hm := eigenMagn_of_triple_root D ha hb
  have hsmall : ¬ eigenMagn realLibm D > 1e-24 := by rw [hm]; norm_num
  have hfb : ¬ eigenB0 D < -1e-10 := not_lt.mpr (le_trans (by norm_num) (eigenB0_nonneg_any D))
  refine ⟨⟨hm, by rw [hm]; norm_num, ?_, ?_, ?_⟩, specMatrix_magn,
    by rw [specMatrix_magn]; norm_num, specMatrix_eigen⟩
  · unfold eigenApB; rw [if_neg hsmall]
  · unfold eigenAmB; rw [if_neg hsmall]
  · rw [eigen_of_magn_small D hfb hsmall, hp]
    have e : -(-(3 * l)) / 3 = l := by ring
    rw [e]

/-- C19, at `D = diag(5,5,5)` with `l = 5`. -/
theorem eigen_triple_eigenvalue_witness :
    IsSymm (![5, 0, 0, 0, 5, 0, 0, 0, 5] : Mat9 ℝ)
      ∧ (∀ x : ℝ, det (charMatrix x (![5, 0, 0, 0, 5, 0, 0, 0, 5] : Mat9 ℝ)) = (x - 5) ^ 3)
      ∧ eigenMagn realLibm (![5, 0, 0, 0, 5, 0, 0, 0, 5] : Mat9 ℝ) ≤ 1e-24
      ∧ eigen realLibm (![5, 0, 0, 0, 5, 0, 0, 0, 5] : Mat9 ℝ) = ![5, 5, 5] :=
  have hs : IsSymm (![5, 0, 0, 0, 5, 0, 0, 0, 5] : Mat9 ℝ) := ⟨rfl, rfl, rfl⟩
  have h3 : ∀ x : ℝ, det (charMatrix x (![5, 0, 0, 0, 5, 0, 0, 0, 5] : Mat9 ℝ)) = (x - 5) ^ 3 := by
    intro x
    simp only [det, charMatrix, identity9, vec9_0, vec9_1, vec9_2, vec9_3, vec9_4, vec9_5, vec9_6,
      vec9_7, vec9_8]
    ring
  ⟨hs, h3, (eigen_triple_eigenvalue _ 5 hs h3).1.2.1, (eigen_triple_eigenvalue _ 5 hs h3).1.2.2.2.2⟩

/-- C19 as stated fails at the spec's own matrix `D = [[2,1,0],[1,2,0],[0,0,3]]`: it is
symmetric with the repeated eigenvalue 3 (characteristic polynomial `(x-1)(x-3)^2`), yet
`eigen` computes `magn = 8/27`, which is not `<= 1e-24`, so the branch `ApB = AmB = 0` is
not the one taken. -/
theorem eigen_triple_eigenvalue_counterexample :
    IsSymm (![2, 1, 0, 1, 2, 0, 0, 0, 3] : Mat9 ℝ)
      ∧ (∀ x : ℝ, det (charMatrix x (![2, 1, 0, 1, 2, 0, 0, 0, 3] : Mat9 ℝ))
          = (x - 1) * (x - 3) ^ 2)
      ∧ eigenMagn realLibm (![2, 1, 0, 1, 2, 0, 0, 0, 3] : Mat9 ℝ) = 8 / 27
      ∧ ¬ eigenMagn realLibm (![2, 1, 0, 1, 2, 0, 0, 0, 3] : Mat9 ℝ) ≤ 1e-24 := by
  refine ⟨⟨rfl, rfl, rfl⟩, fun x => ?_, specMatrix_magn, ?_⟩
  · simp only [det, charMatrix, identity9, vec9_0, vec9_1, vec9_2, vec9_3, vec9_4, vec9_5, vec9_6,
      vec9_7, vec9_8]
    ring
  · rw [specMatrix_magn]
    norm_num

/-- C20: for symmetric real `D` and `lambda` with `det(D - lambda*I) = 0`, and any
comparator that holds at `(0,0)` (every tolerance comparator does), with
`a = D[2]^2 - (D[0]-lambda)(D[8]-lambda)`, `c = D[5]^2 - (D[4]-lambda)(D[8]-lambda)`,
`b = D[2]*D[5] - D[1]*(D[8]-lambda)`: `a*c - b^2 = (D[8]-lambda)*det(D - lambda*I) = 0`,
`a > 0` implies `c >= 0`, `a < 0` implies `c <= 0`, and every `sqrt` call of the generic
branch of `eigenvect` receives a non-negative argument (the branch yields a vector). -/
theorem eigenvect_sqrt_args_nonneg (dcomp : ℝ → ℝ → Bool) (h00 : dcomp 0 0 = true)
    (D : Mat9 ℝ) (lambda : ℝ) (hD : IsSymm D) (hl : det (shiftMatrix D lambda) = 0) :
    (D 2 * D 2 - (D 0 - lambda) * (D 8 - lambda)) * (D 5 * D 5 - (D 4 - lambda) * (D 8 - lambda))
        - (D 2 * D 5 - D 1 * (D 8 - lambda)) ^ 2
        = (D 8 - lambda) * det (shiftMatrix D lambda)
      ∧ (D 8 - lambda) * det (shiftMatrix D lambda) = 0
      ∧ (D 2 * D 2 - (D 0 - lambda) * (D 8 - lambda) > 0 →
          0 ≤ D 5 * D 5 - (D 4 - lambda) * (D 8 - lambda))
      ∧ (D 2 * D 2 - (D 0 - lambda) * (D 8 - lambda) < 0 →
          D 5 * D 5 - (D 4 - lambda) * (D 8 - lambda) ≤ 0)
      ∧ ∃ raw, eigenvectGeneric realLibm dcomp D lambda = some raw := by
  have hl' : det (charMatrix lambda D) = 0 := by
    have := det_shiftMatrix D lambda
    rw [hl] at this
    linarith
  have hac := minors_relation D lambda hD hl'
  have hbb : 0 ≤ (D 2 * D 2 - (D 0 - lambda) * (D 8 - lambda))
      * (D 5 * D 5 - (D 4 - lambda) * (D 8 - lambda)) := by
    rw [hac]; exact mul_self_nonneg _
  refine ⟨?_, by rw [hl, mul_zero], fun hapos => ?_, fun haneg => ?_,
    eigenvectGeneric_some dcomp h00 D lambda hD hl'⟩
  · rw [hl, mul_zero, hac]
    ring
  · by_contra hneg
    have := mul_neg_of_pos_of_neg hapos (not_le.mp hneg)
    linarith
  · by_contra hpos
    have := mul_neg_of_neg_of_pos haneg (not_le.mp hpos)
    linarith

/-- C20, at `D = diag(1,2,3)`, `lambda = 2`, with the tolerance comparator of epsilon
`1e-7`. -/
theorem eigenvect_sqrt_args_nonneg_witness :
    dcompTol (1e-7 : ℝ) 0 0 = true
      ∧ IsSymm (![1, 0, 0, 0, 2, 0, 0, 0, 3] : Mat9 ℝ)
      ∧ det (shiftMatrix (![1, 0, 0, 0, 2, 0, 0, 0, 3] : Mat9 ℝ) 2) = 0
      ∧ ∃ raw, eigenvectGeneric realLibm (dcompTol 1e-7) (![1, 0, 0, 0, 2, 0, 0, 0, 3] : Mat9 ℝ) 2
          = some raw :=
  have h00 : dcompTol (1e-7 : ℝ) 0 0 = true := by norm_num [dcompTol]
  have hs : IsSymm (![1, 0, 0, 0, 2, 0, 0, 0, 3] : Mat9 ℝ) := ⟨rfl, rfl, rfl⟩
  have hdet : det (shiftMatrix (![1, 0, 0, 0, 2, 0, 0, 0, 3] : Mat9 ℝ) 2) = 0 := by
    simp only [det, shiftMatrix, identity9, vec9_0, vec9_1, vec9_2, vec9_3, vec9_4, vec9_5,
      vec9_6, vec9_7, vec9_8]
    norm_num
  ⟨h00, hs, hdet, (eigenvect_sqrt_args_nonneg _ h00 _ 2 hs hdet).2.2.2.2⟩

end AnisotropicElasticity
